import Mathlib

/-!
# milotorrent: message framing, compact peer lists and metainfo conversion

A shallow embedding of `src/message/message.go` and of the pure parts of
`src/main.go`, followed by theorems about them.

Conventions of the embedding.

* A Go `byte` is a `Fin 256`; a `[]byte` or `string` value is the `List Byte` of
  its `len` elements.  Wider machine integers are natural numbers reduced
  `% 2 ^ w` at the places where Go converts or wraps.  `int` is taken to be 64 bits
  wide, so `len(x) + 1` converted to `uint32` is `(len x + 1) % 2 ^ 32`.
* A run-time panic is the outer `none` of an `Option`.
* A Go result pair `(value, error)` is a Lean pair whose second component is an
  `Option GoError`; a `nil` pointer or `nil` slice is `none` respectively `[]`.
* An `io.Reader` is the list of bytes it has not yet delivered; after the last
  one it reports `io.EOF`.
* Calls into libraries outside the repository whose result the program only
  passes on (`bencode.Marshal`, `bencode.Unmarshal`, `sha1.Sum`, `url.Parse`,
  `http.Get`, the spare capacity the run time gives `[]byte(s)`) are parameters of
  the embedded function; theorems hold for every value of them.  `uint` is taken
  to be 64 bits wide.
-/

namespace Milotorrent

/-! ## Bytes, slices and `encoding/binary` -/

abbrev Byte := Fin 256

/-- Conversion `byte(v)` of an unsigned integer: the low eight bits. -/
def toByte (v : Nat) : Byte := ⟨v % 256, Nat.mod_lt v (by decide)⟩

/-- Go errors that the embedded functions can return. -/
inductive GoError where
  | EOF
  | ErrUnexpectedEOF
  | errorf (msg : String)
  | marshal (msg : String)
  | errorsNew (msg : List Byte)
  deriving DecidableEq, Repr

/-- Allocation `make([]byte, n)`: `n` zero bytes, capacity `n`. -/
def makeBytes (n : Nat) : List Byte := List.replicate n 0

/-- Slice expression `a[lo:hi]` on a slice whose backing array is `arr` (so that
`cap(a) = arr.length`); out-of-range bounds panic. -/
def slice (arr : List Byte) (lo hi : Nat) : Option (List Byte) :=
  if lo ≤ hi ∧ hi ≤ arr.length then some ((arr.take hi).drop lo) else none

/-- Builtin `copy(dst, src)`: the contents of `dst` afterwards. -/
def copy (dst src : List Byte) : List Byte :=
  src.take dst.length ++ dst.drop src.length

/-- Function `binary.BigEndian.PutUint32(b, v)`: the contents of `b` afterwards; it
panics when `b` has fewer than four bytes. -/
def PutUint32 (b : List Byte) (v : Nat) : Option (List Byte) :=
  if 4 ≤ b.length then
    some ([toByte (v >>> 24), toByte (v >>> 16), toByte (v >>> 8), toByte v] ++ b.drop 4)
  else none

/-- Function `binary.BigEndian.Uint32(b)`; it panics when `b` has fewer than four
bytes. -/
def Uint32 (b : List Byte) : Option Nat :=
  match b with
  | b0 :: b1 :: b2 :: b3 :: _ =>
    some (b3.val ||| b2.val <<< 8 ||| b1.val <<< 16 ||| b0.val <<< 24)
  | _ => none

/-- Function `binary.BigEndian.Uint16(b)`; it panics when `b` has fewer than two
bytes. -/
def Uint16 (b : List Byte) : Option Nat :=
  match b with
  | b0 :: b1 :: _ => some (b1.val ||| b0.val <<< 8)
  | _ => none

/-! ## `message.go` -/

/-- Type `Message` stores ID and payload of a message. -/
structure Message where
  ID : Byte
  Payload : List Byte
  deriving DecidableEq, Repr

def Choke : Byte := 0
def Unchoke : Byte := 1
def Interested : Byte := 2
def NotInterested : Byte := 3
def Have : Byte := 4
def Bitfield : Byte := 5
def Request : Byte := 6
def Piece : Byte := 7
def Cancel : Byte := 8

/-- Method `(*Message).Serialize`; the argument is the receiver, `none` for `nil`.
The outer `none` of the result is a panic. -/
def Serialize (m : Option Message) : Option (List Byte) :=
  match m with
  | none => some (makeBytes 4)
  | some m =>
    let length := (m.Payload.length + 1) % 2 ^ 32
    let buf := makeBytes ((4 + length) % 2 ^ 32)
    -- binary.BigEndian.PutUint32(buf[0:4], length)
    match slice buf 0 4 with
    | none => none
    | some window =>
      match PutUint32 window length with
      | none => none
      | some window =>
        let buf := window ++ buf.drop 4
        -- buf[4] = byte(m.ID)
        if 4 < buf.length then
          let buf := buf.set 4 m.ID
          -- copy(buf[5:], m.Payload)
          match slice buf 5 buf.length with
          | none => none
          | some tail => some (buf.take 5 ++ copy tail m.Payload)
        else none

/-- Function `io.ReadFull(r, buf)` on a reader that still holds the bytes `r`: the
contents of `buf` afterwards, the error, and what the reader still holds. -/
def ReadFull (r buf : List Byte) : List Byte × Option GoError × List Byte :=
  if buf.length ≤ r.length then (r.take buf.length, none, r.drop buf.length)
  else if r.length = 0 then (buf, some GoError.EOF, [])
  else (r ++ buf.drop r.length, some GoError.ErrUnexpectedEOF, [])

/-- Function `Deserialize(r)`: the returned pair `(*Message, error)` and what the
reader still holds.  The outer `none` is a panic. -/
def Deserialize (r : List Byte) : Option (Option Message × Option GoError × List Byte) :=
  let lengthBuf := makeBytes 4
  match ReadFull r lengthBuf with
  | (_, some err, r) => some (none, some err, r)
  | (lengthBuf, none, r) =>
    match Uint32 lengthBuf with
    | none => none
    | some length =>
      -- keep-alive message
      if length = 0 then some (none, none, r)
      else
        let messageBuf := makeBytes length
        match ReadFull r messageBuf with
        | (_, some err, r) => some (none, some err, r)
        | (messageBuf, none, r) =>
          match messageBuf with
          | [] => none
          | b0 :: payload => some (some { ID := b0, Payload := payload }, none, r)

/-! ## `main.go` -/

def ShaDigestLen : Nat := 20

/-- Type `Peer`: `IP` is a `net.IP` (a byte slice, `[]` for `nil`), `Port` a `uint16`. -/
structure Peer where
  IP : List Byte
  Port : Nat
  deriving DecidableEq, Repr

/-- Method `net.IP.String` of the standard library: dotted decimal for an address of
four bytes.  What the standard library prints for any other length is the
parameter `other`. -/
def IPString (other : List Byte → String) (ip : List Byte) : String :=
  match ip with
  | [a, b, c, d] =>
    Nat.repr a.val ++ "." ++ Nat.repr b.val ++ "." ++ Nat.repr c.val ++ "." ++ Nat.repr d.val
  | _ => other ip

/-- Method `(*Peer).ToString`. -/
def Peer.ToString (other : List Byte → String) (p : Peer) : String :=
  IPString other p.IP ++ ":" ++ Nat.repr p.Port

/-- Conversion `[]byte(s)` of a string: the backing array of the new slice.  Its
first `len(s)` bytes are those of `s`; `spare` is whatever capacity the run time
adds behind them (`cap = len(s) + len(spare)`). -/
def bytesOfString (spare s : List Byte) : List Byte := s ++ spare

/-- Loop `for i := 0; i < numPeers; i++ { ... }` of `ParsePeers`, entered at `i` with
the slice `peers`; `arr` is the backing array of `p`. -/
def parsePeersLoop (arr : List Byte) (numPeers i : Nat) (peers : List Peer) :
    Option (List Peer) :=
  if i < numPeers then
    let offset := i * 6
    -- peers[i].IP = p[offset : offset+4]
    match slice arr offset (offset + 4) with
    | none => none
    | some ip =>
      match peers[i]? with
      | none => none
      | some pi =>
        let peers := peers.set i { pi with IP := ip }
        -- peers[i].Port = binary.BigEndian.Uint16(p[offset+4 : offset+6])
        match slice arr (offset + 4) (offset + 6) with
        | none => none
        | some pb =>
          match Uint16 pb with
          | none => none
          | some port =>
            match peers[i]? with
            | none => none
            | some pi =>
              parsePeersLoop arr numPeers (i + 1) (peers.set i { pi with Port := port })
  else some peers
termination_by numPeers - i

/-- Function `ParsePeers(pStr)`: the returned pair `([]Peer, error)`.  The outer
`none` is a panic; `spare` is the spare capacity of `[]byte(pStr)`. -/
def ParsePeers (spare pStr : List Byte) : Option (List Peer × Option GoError) :=
  let peerSize := 6
  let arr := bytesOfString spare pStr
  let len := pStr.length
  let numPeers := len / peerSize
  if len % peerSize ≠ 0 then
    some ([], some (GoError.errorf "received malformed peers"))
  else
    let peers := List.replicate numPeers ({ IP := [], Port := 0 } : Peer)
    match parsePeersLoop arr numPeers 0 peers with
    | none => none
    | some peers => some (peers, none)

structure TorrentFile where
  Interval : Nat
  Peers : List Peer
  Announce : List Byte
  InfoHash : List Byte
  PieceHashes : List (List Byte)
  PieceLength : Int
  Length : Int
  Name : List Byte
  deriving DecidableEq, Repr

structure BencodeInfo where
  Pieces : List Byte
  PieceLength : Int
  Length : Int
  Name : List Byte
  deriving DecidableEq, Repr

structure BencodeTorrent where
  Announce : List Byte
  Info : BencodeInfo
  deriving DecidableEq, Repr

/-- Method `(*BencodeInfo).Hash`: the returned pair `([20]byte, error)`.  The two
library calls are parameters: `marshal` is `bencode.Marshal` into a fresh buffer
(the bytes written, or its error) and `sha1` is `sha1.Sum`. -/
def BencodeInfo.Hash (marshal : BencodeInfo → Except GoError (List Byte))
    (sha1 : List Byte → List Byte) (info : BencodeInfo) : List Byte × Option GoError :=
  match marshal info with
  | Except.error err => (makeBytes ShaDigestLen, some err)
  | Except.ok buf => (sha1 buf, none)

/-- Loop `for idx := 0; idx < len(piecesBytes); idx += ShaDigestLen { ... }` of
`BencodeToTorrent`, entered at `idx` with `PieceHashes = hashes`; `arr` is the
backing array of `piecesBytes` and `len` its length. -/
def pieceHashesLoop (arr : List Byte) (len idx : Nat) (hashes : List (List Byte)) :
    Option (List (List Byte)) :=
  if idx < len then
    let stop := idx + ShaDigestLen
    -- piece := piecesBytes[idx:end]
    match slice arr idx stop with
    | none => none
    | some piece =>
      -- var hash [ShaDigestLen]byte; copy(hash[:], piece)
      let hash := copy (makeBytes ShaDigestLen) piece
      pieceHashesLoop arr len (idx + ShaDigestLen) (hashes ++ [hash])
  else some hashes
termination_by len - idx
decreasing_by simp [ShaDigestLen]; omega

/-- Function `BencodeToTorrent(b)` for a non-nil `b`: the returned pair
`(*TorrentFile, error)`.  The outer `none` is a panic; `spare` is the spare
capacity of `[]byte(b.Info.Pieces)`; `marshal` and `sha1` are as in
`BencodeInfo.Hash`. -/
def BencodeToTorrent (marshal : BencodeInfo → Except GoError (List Byte))
    (sha1 : List Byte → List Byte) (spare : List Byte) (b : BencodeTorrent) :
    Option (Option TorrentFile × Option GoError) :=
  let torrentFile : TorrentFile :=
    { Interval := 0, Peers := [], Announce := b.Announce, InfoHash := makeBytes ShaDigestLen,
      PieceHashes := [], PieceLength := b.Info.PieceLength, Length := b.Info.Length,
      Name := b.Info.Name }
  let piecesBytes := bytesOfString spare b.Info.Pieces
  match pieceHashesLoop piecesBytes b.Info.Pieces.length 0 torrentFile.PieceHashes with
  | none => none
  | some hashes =>
    let torrentFile := { torrentFile with PieceHashes := hashes }
    match BencodeInfo.Hash marshal sha1 b.Info with
    | (_, some err) => some (none, some err)
    | (hash, none) => some (some { torrentFile with InfoHash := hash }, none)

/-- Ceiling of `a / b` for a positive divisor, on integers. -/
def ceilDiv (a b : Int) : Int := -((-a) / b)

/-- Big-endian encoding of `v` in four bytes, most significant byte first. -/
def be32 (v : Nat) : List Byte :=
  [toByte (v >>> 24), toByte (v >>> 16), toByte (v >>> 8), toByte v]

/-- Value of four bytes read as a big-endian number. -/
def be32Value (b0 b1 b2 b3 : Byte) : Nat :=
  b0.val * 2 ^ 24 + b1.val * 2 ^ 16 + b2.val * 2 ^ 8 + b3.val

/-- The peer that the compact entry number `j` of `arr` encodes: four address bytes,
then the port, most significant byte first. -/
def peerAt (arr : List Byte) (j : Nat) : Peer :=
  { IP := [arr.getD (6 * j) 0, arr.getD (6 * j + 1) 0, arr.getD (6 * j + 2) 0,
      arr.getD (6 * j + 3) 0],
    Port := 256 * (arr.getD (6 * j + 4) 0).val + (arr.getD (6 * j + 5) 0).val }

/-- The twenty bytes of `arr` from offset `20 * j` on. -/
def pieceAt (arr : List Byte) (j : Nat) : List Byte :=
  (arr.take (20 * j + 20)).drop (20 * j)

/-- A marshaller that succeeds, writing `buf`, on every info dictionary. -/
def marshalTo (buf : List Byte) : BencodeInfo → Except GoError (List Byte) :=
  fun _ => Except.ok buf

/-- A digest function that returns twenty zero bytes for every input. -/
def zeroDigest : List Byte → List Byte :=
  fun _ => makeBytes ShaDigestLen

/-- A metainfo with one piece hash that announces 10 bytes in pieces of 4. -/
def inconsistentMetainfo : BencodeTorrent :=
  { Announce := [104, 116, 116, 112],
    Info := { Pieces := List.replicate 20 7, PieceLength := 4, Length := 10, Name := [120] } }

/-- A metainfo with one piece hash that announces 4 bytes in pieces of 4. -/
def consistentMetainfo : BencodeTorrent :=
  { Announce := [104, 116, 116, 112],
    Info := { Pieces := List.replicate 20 7, PieceLength := 4, Length := 4, Name := [120] } }

/-- A metainfo whose pieces string is a single byte. -/
def raggedMetainfo : BencodeTorrent :=
  { Announce := [104, 116, 116, 112],
    Info := { Pieces := [97], PieceLength := 4, Length := 4, Name := [120] } }

/-- Function `Open(r)`: the returned pair `(*BencodeTorrent, error)`.  The library
call is a parameter: `unmarshal r` is what `bencode.Unmarshal(r, &bto)` leaves in
the zero-valued `bto`, and its error. -/
def Open (unmarshal : List Byte → BencodeTorrent × Option GoError) (r : List Byte) :
    Option BencodeTorrent × Option GoError :=
  match unmarshal r with
  | (_, some err) => (none, some err)
  | (bto, none) => (some bto, none)

/-- The metainfo in which every field has the zero value that the decoder leaves for
a missing key. -/
def absentFieldsMetainfo : BencodeTorrent :=
  { Announce := [], Info := { Pieces := [], PieceLength := 0, Length := 0, Name := [] } }

/-- A decoder that leaves `consistentMetainfo` in the struct whatever the file
holds. -/
def decodeToConsistent : List Byte → BencodeTorrent × Option GoError :=
  fun _ => (consistentMetainfo, none)

/-- The start of `main`: `Open(file)` followed, when it returns no error, by
`BencodeToTorrent`; the result is the pair that `BencodeToTorrent` returns, or the
error of `Open`. -/
def openAndConvert (unmarshal : List Byte → BencodeTorrent × Option GoError)
    (marshal : BencodeInfo → Except GoError (List Byte)) (sha1 : List Byte → List Byte)
    (spare r : List Byte) : Option (Option TorrentFile × Option GoError) :=
  match Open unmarshal r with
  | (_, some err) => some (none, some err)
  | (none, none) => none
  | (some torrentBencode, none) => BencodeToTorrent marshal sha1 spare torrentBencode

/-- The stream `Serialize(m1) ++ ... ++ Serialize(mn)`; a panic of one `Serialize`
is a panic of the whole. -/
def SerializeAll : List (Option Message) → Option (List Byte)
  | [] => some []
  | m :: ms =>
    match Serialize m with
    | none => none
    | some frame =>
      match SerializeAll ms with
      | none => none
      | some out => some (frame ++ out)

/-- Calls `Deserialize` `n` times in a row on one reader: the pairs returned, in
order, and what the reader still holds. -/
def DeserializeTimes : Nat → List Byte →
    Option (List (Option Message × Option GoError) × List Byte)
  | 0, r => some ([], r)
  | n + 1, r =>
    match Deserialize r with
    | none => none
    | some (m, err, r) =>
      match DeserializeTimes n r with
      | none => none
      | some (results, r) => some ((m, err) :: results, r)

/-- The call `Deserialize` on a reader that holds exactly `Serialize(m)`. -/
def deserializeSerialized (m : Option Message) :
    Option (Option Message × Option GoError × List Byte) :=
  match Serialize m with
  | none => none
  | some out => Deserialize out

/-- One call of `Deserialize` for each message and a further one, on a reader that
holds exactly `Serialize(m1) ++ ... ++ Serialize(mn)`. -/
def deserializeAllSerialized (ms : List (Option Message)) :
    Option (List (Option Message × Option GoError) × List Byte) :=
  match SerializeAll ms with
  | none => none
  | some out => DeserializeTimes (ms.length + 1) out

/-! ## `BuildTrackerURL` and the parts of `net/url` and `strconv` it calls -/

/-- A Go `string`: its bytes. -/
abbrev GoString := List Byte

/-- The bytes of a string constant of the program (ASCII characters, one byte each). -/
def bytesOf (s : String) : GoString := s.data.map (fun c => toByte c.toNat)

/-- Function `strconv.Itoa(i)`: the decimal digits of `i`, after a minus sign when it
is negative. -/
def Itoa (i : Int) : GoString :=
  match i with
  | Int.ofNat n => bytesOf (Nat.repr n)
  | Int.negSucc n => bytesOf "-" ++ bytesOf (Nat.repr (n + 1))

def upperhex : GoString := bytesOf "0123456789ABCDEF"

/-- Function `shouldEscape(c, encodeQueryComponent)` of `net/url`: letters, digits and
`-`, `_`, `.`, `~` are left alone, every other byte is escaped. -/
def shouldEscape (c : Byte) : Bool :=
  if (97 ≤ c.val ∧ c.val ≤ 122) ∨ (65 ≤ c.val ∧ c.val ≤ 90) ∨ (48 ≤ c.val ∧ c.val ≤ 57) then
    false
  else if c.val = 45 ∨ c.val = 95 ∨ c.val = 46 ∨ c.val = 126 then false
  else true

/-- What `url.QueryEscape` writes for one byte: the byte itself, `+` for a space, or
`%` and two upper-case hexadecimal digits. -/
def escapeByte (c : Byte) : GoString :=
  if shouldEscape c then
    if c.val = 32 then bytesOf "+"
    else [37, upperhex.getD (c.val >>> 4) 0, upperhex.getD (c.val &&& 15) 0]
  else [c]

/-- Function `url.QueryEscape(s)`. -/
def QueryEscape (s : GoString) : GoString := s.flatMap escapeByte

/-- Type `url.Values`, a `map[string][]string`: the entries of the map, one for each
key. -/
abbrev Values := List (GoString × List GoString)

/-- Insertion of `k` into a sorted list of keys. -/
def insertKey (k : GoString) : List GoString → List GoString
  | [] => [k]
  | x :: xs => if x < k then x :: insertKey k xs else k :: x :: xs

/-- Call `slices.Sort(keys)`: the keys in increasing byte-wise order. -/
def sortKeys (keys : List GoString) : List GoString := keys.foldr insertKey []

/-- Body of the inner loop of `Values.Encode`: an `&` when the buffer is not empty,
then the escaped key, `=` and the escaped value. -/
def writePair (buf keyEscaped v : GoString) : GoString :=
  let buf := if buf.length > 0 then buf ++ bytesOf "&" else buf
  buf ++ keyEscaped ++ bytesOf "=" ++ QueryEscape v

/-- Method `Values.Encode`: the pairs `key=value`, escaped, sorted by key and joined
by `&`. -/
def Values.Encode (v : Values) : GoString :=
  if v.length = 0 then []
  else
    (sortKeys (v.map Prod.fst)).foldl
      (fun buf k =>
        ((v.lookup k).getD []).foldl (fun buf x => writePair buf (QueryEscape k) x) buf)
      []

/-- Type `url.URL`; `User` holds what `User.String()` prints, `none` for `nil`. -/
structure URL where
  Scheme : GoString
  Opaque : GoString
  User : Option GoString
  Host : GoString
  Path : GoString
  RawPath : GoString
  OmitHost : Bool
  ForceQuery : Bool
  RawQuery : GoString
  Fragment : GoString
  RawFragment : GoString
  deriving DecidableEq, Repr

/-- Method `(*URL).String`.  It writes three parts in a row.  The first, scheme,
opaque part or user, host and path, is the parameter `front`, a function of those
fields only.  The second is `?` and `RawQuery`, written when `ForceQuery` is set or
`RawQuery` is not empty.  The third is `#` and the escaped fragment, written when
`Fragment` is not empty; the escaping is the parameter `escapedFragment`. -/
def URL.String
    (front : GoString → GoString → Option GoString → GoString → GoString → GoString → Bool →
      GoString)
    (escapedFragment : GoString → GoString → GoString) (u : URL) : GoString :=
  let buf := front u.Scheme u.Opaque u.User u.Host u.Path u.RawPath u.OmitHost
  let buf := if u.ForceQuery ∨ u.RawQuery ≠ [] then buf ++ bytesOf "?" ++ u.RawQuery else buf
  if u.Fragment ≠ [] then buf ++ bytesOf "#" ++ escapedFragment u.Fragment u.RawFragment
  else buf

/-- Method `(*TorrentFile).BuildTrackerURL` for a non-nil receiver: the returned pair
`(string, error)`.  The library calls `url.Parse` and the two parts of
`(*URL).String` that depend on the library are parameters. -/
def BuildTrackerURL (parse : GoString → Except GoError URL)
    (front : GoString → GoString → Option GoString → GoString → GoString → GoString → Bool →
      GoString)
    (escapedFragment : GoString → GoString → GoString)
    (t : TorrentFile) (peerID : GoString) (port : Nat) : GoString × Option GoError :=
  match parse t.Announce with
  | Except.error err => ([], some err)
  | Except.ok base =>
    let params : Values :=
      [(bytesOf "info_hash", [t.InfoHash]),
       (bytesOf "peer_id", [peerID]),
       (bytesOf "port", [Itoa (Int.ofNat port)]),
       (bytesOf "uploaded", [bytesOf "0"]),
       (bytesOf "downloaded", [bytesOf "0"]),
       (bytesOf "compact", [bytesOf "1"]),
       (bytesOf "left", [Itoa t.Length])]
    let base := { base with RawQuery := Values.Encode params }
    (URL.String front escapedFragment base, none)

/-- The query that `BuildTrackerURL` sets: the seven parameters in the order of their
keys. -/
def trackerQuery (infoHash peerID : GoString) (port : Nat) (length : Int) : GoString :=
  bytesOf "compact=1&downloaded=0&info_hash=" ++ QueryEscape infoHash
    ++ bytesOf "&left=" ++ Itoa length
    ++ bytesOf "&peer_id=" ++ QueryEscape peerID
    ++ bytesOf "&port=" ++ Itoa (Int.ofNat port)
    ++ bytesOf "&uploaded=0"

/-- An announce URL with a passkey in its query, as `url.Parse` returns it. -/
def passkeyURL : URL :=
  { Scheme := bytesOf "http", Opaque := [], User := none, Host := bytesOf "tracker.example",
    Path := bytesOf "/announce", RawPath := [], OmitHost := false, ForceQuery := false,
    RawQuery := bytesOf "passkey=abc", Fragment := [], RawFragment := [] }

/-- A parser that returns `passkeyURL`. -/
def parseToPasskeyURL : GoString → Except GoError URL :=
  fun _ => Except.ok passkeyURL

/-- The first part of `(*URL).String` for a URL with scheme, host and plain path. -/
def plainFront : GoString → GoString → Option GoString → GoString → GoString → GoString →
    Bool → GoString :=
  fun scheme _ _ host path _ _ => scheme ++ bytesOf "://" ++ host ++ path

/-- A fragment that needs no escaping. -/
def plainFragment : GoString → GoString → GoString :=
  fun fragment _ => fragment

/-- A torrent file of 4 bytes in one piece, announced at `passkeyURL`. -/
def passkeyTorrentFile : TorrentFile :=
  { Interval := 0, Peers := [],
    Announce := bytesOf "http://tracker.example/announce?passkey=abc",
    InfoHash := [18, 32, 65, 255] ++ List.replicate 16 171,
    PieceHashes := [List.replicate 20 7], PieceLength := 4, Length := 4, Name := [120] }

/-! ## `Announce` -/

/-- What `Announce` reads of an `http.Response`: the status code and the body. -/
structure Response where
  StatusCode : Int
  Body : List Byte
  deriving DecidableEq, Repr

/-- Type `AnnounceResponse`, local to `Announce`. -/
structure AnnounceResponse where
  Interval : Int
  Peers : List Byte
  deriving DecidableEq, Repr

/-- Conversion `uint(i)` of an `int`, both 64 bits wide. -/
def uintOfInt (i : Int) : Nat := (i % 2 ^ 64).toNat

set_option linter.unusedVariables false in
/-- Function `Announce(pid, url)`: the returned triple `([]Peer, uint, error)`.  The
outer `none` is a panic.  The library calls are parameters: `get` is `http.Get`
(the response or its error) and `unmarshal body` is what
`bencode.Unmarshal(response.Body, &announceRes)` leaves in the zero-valued struct,
and its error; `spare` is the spare capacity of `[]byte(announceRes.Peers)`. -/
def Announce (get : GoString → Except GoError Response)
    (unmarshal : List Byte → AnnounceResponse × Option GoError)
    (spare : List Byte) (pid : GoString) (url : GoString) :
    Option (List Peer × Nat × Option GoError) :=
  match get url with
  | Except.error err => some ([], 0, some err)
  | Except.ok response =>
    if response.StatusCode ≥ 200 ∧ response.StatusCode ≤ 299 then
      match unmarshal response.Body with
      | (_, some err) => some ([], 0, some err)
      | (announceRes, none) =>
        let interval := uintOfInt announceRes.Interval
        match ParsePeers spare announceRes.Peers with
        | none => none
        | some (_, some err) => some ([], 0, some err)
        | some (peers, none) => some (peers, interval, none)
    else
      some ([], 0, some (GoError.errorsNew
        (bytesOf "Announce failed with status " ++ Itoa response.StatusCode)))

/-- A tracker that answers every request with the given status and body. -/
def getFixed (status : Int) (body : List Byte) : GoString → Except GoError Response :=
  fun _ => Except.ok { StatusCode := status, Body := body }

/-- A decoder that leaves the given interval and peers string in the struct. -/
def decodeFixed (interval : Int) (peers : List Byte) :
    List Byte → AnnounceResponse × Option GoError :=
  fun _ => ({ Interval := interval, Peers := peers }, none)

/-! ## Big-endian integers -/

theorem lor_shift_eq_add (b0 b1 b2 b3 : Nat) (h1 : b1 < 256) (h2 : b2 < 256)
    (h3 : b3 < 256) :
    b3 ||| b2 <<< 8 ||| b1 <<< 16 ||| b0 <<< 24
      = b0 * 2 ^ 24 + b1 * 2 ^ 16 + b2 * 2 ^ 8 + b3 := by
  have e1 : b3 ||| b2 <<< 8 = 2 ^ 8 * b2 + b3 := by
    rw [Nat.shiftLeft_eq, Nat.lor_comm, Nat.mul_comm]
    exact (Nat.mul_add_lt_is_or (i := 8) (by simpa using h3) b2).symm
  have e2 : (2 ^ 8 * b2 + b3) ||| b1 <<< 16 = 2 ^ 16 * b1 + (2 ^ 8 * b2 + b3) := by
    rw [Nat.shiftLeft_eq, Nat.lor_comm, Nat.mul_comm]
    exact (Nat.mul_add_lt_is_or (i := 16) (by norm_num; omega) b1).symm
  have e3 : (2 ^ 16 * b1 + (2 ^ 8 * b2 + b3)) ||| b0 <<< 24
      = 2 ^ 24 * b0 + (2 ^ 16 * b1 + (2 ^ 8 * b2 + b3)) := by
    rw [Nat.shiftLeft_eq, Nat.lor_comm, Nat.mul_comm]
    exact (Nat.mul_add_lt_is_or (i := 24) (by norm_num; omega) b0).symm
  rw [e1, e2, e3]; ring

theorem lor_shift8_eq_add (b0 b1 : Nat) (h1 : b1 < 256) :
    b1 ||| b0 <<< 8 = 256 * b0 + b1 := by
  rw [Nat.shiftLeft_eq, Nat.lor_comm, Nat.mul_comm]
  exact (Nat.mul_add_lt_is_or (i := 8) (by simpa using h1) b0).symm

theorem Uint32_cons (b0 b1 b2 b3 : Byte) (t : List Byte) :
    Uint32 (b0 :: b1 :: b2 :: b3 :: t) = some (be32Value b0 b1 b2 b3) := by
  simp only [Uint32, be32Value]
  rw [lor_shift_eq_add _ _ _ _ b1.isLt b2.isLt b3.isLt]

theorem Uint16_cons (b0 b1 : Byte) (t : List Byte) :
    Uint16 (b0 :: b1 :: t) = some (256 * b0.val + b1.val) := by
  simp only [Uint16]
  rw [lor_shift8_eq_add _ _ b1.isLt]

theorem be32Value_lt (b0 b1 b2 b3 : Byte) : be32Value b0 b1 b2 b3 < 2 ^ 32 := by
  have h0 := b0.isLt
  have h1 := b1.isLt
  have h2 := b2.isLt
  have h3 := b3.isLt
  simp only [be32Value]
  omega

theorem be32_be32Value (b0 b1 b2 b3 : Byte) :
    be32 (be32Value b0 b1 b2 b3) = [b0, b1, b2, b3] := by
  have h0 := b0.isLt
  have h1 := b1.isLt
  have h2 := b2.isLt
  have h3 := b3.isLt
  simp only [be32, be32Value, toByte, Nat.shiftRight_eq_div_pow]
  refine List.cons_eq_cons.mpr ⟨Fin.ext ?_, List.cons_eq_cons.mpr ⟨Fin.ext ?_,
    List.cons_eq_cons.mpr ⟨Fin.ext ?_, List.cons_eq_cons.mpr ⟨Fin.ext ?_, rfl⟩⟩⟩⟩ <;>
  · simp only []
    omega

theorem be32Value_be32 (v : Nat) (hv : v < 2 ^ 32) :
    be32Value (toByte (v >>> 24)) (toByte (v >>> 16)) (toByte (v >>> 8)) (toByte v) = v := by
  simp only [be32Value, toByte, Nat.shiftRight_eq_div_pow]
  omega

theorem be32_length (v : Nat) : (be32 v).length = 4 := rfl

/-! ## `Serialize` -/

theorem copy_zeros (src : List Byte) : copy (List.replicate src.length 0) src = src := by
  simp [copy]

/-- What `Serialize` returns whenever `4 + length` does not wrap. -/
theorem Serialize_some_eq (m : Message) (h : m.Payload.length + 5 < 2 ^ 32) :
    Serialize (some m) = some (be32 (m.Payload.length + 1) ++ m.ID :: m.Payload) := by
  have e1 : (m.Payload.length + 1) % 2 ^ 32 = m.Payload.length + 1 :=
    Nat.mod_eq_of_lt (by omega)
  have e2 : (4 + (m.Payload.length + 1)) % 2 ^ 32 = m.Payload.length + 5 := by
    rw [Nat.mod_eq_of_lt (by omega)]; omega
  simp only [Serialize, e1, e2, makeBytes]
  have e3 : List.replicate (m.Payload.length + 5) (0 : Byte)
      = 0 :: 0 :: 0 :: 0 :: 0 :: List.replicate m.Payload.length 0 := by
    simp [List.replicate_succ]
  rw [e3]
  simp [slice, PutUint32, be32, copy]

/-- When `4 + length` wraps to at most four, `Serialize` panics. -/
theorem Serialize_some_panic (m : Message)
    (h : (4 + (m.Payload.length + 1) % 2 ^ 32) % 2 ^ 32 ≤ 4) :
    Serialize (some m) = none := by
  simp only [Serialize, makeBytes]
  generalize (4 + (m.Payload.length + 1) % 2 ^ 32) % 2 ^ 32 = n at h
  by_cases h4 : n = 4
  · subst h4
    simp [slice, PutUint32, List.replicate_succ]
  · have : ¬ 4 ≤ n := by omega
    simp [slice, this]

/-! ## `Deserialize` -/

/-- A reader that ends inside the length prefix. -/
theorem Deserialize_short (r : List Byte) (h : r.length < 4) :
    Deserialize r
      = some (none, some (if r.length = 0 then GoError.EOF else GoError.ErrUnexpectedEOF), []) := by
  have h4 : ¬ 4 ≤ r.length := by omega
  by_cases h0 : r.length = 0 <;> simp [Deserialize, ReadFull, makeBytes, h4, h0]

/-- A reader that holds at least the length prefix. -/
theorem Deserialize_cons (b0 b1 b2 b3 : Byte) (t : List Byte) :
    Deserialize (b0 :: b1 :: b2 :: b3 :: t)
      = if be32Value b0 b1 b2 b3 = 0 then some (none, none, t)
        else if be32Value b0 b1 b2 b3 ≤ t.length then
          match t.take (be32Value b0 b1 b2 b3) with
          | [] => none
          | x :: payload => some (some { ID := x, Payload := payload }, none, t.drop (be32Value b0 b1 b2 b3))
        else if t.length = 0 then some (none, some GoError.EOF, [])
        else some (none, some GoError.ErrUnexpectedEOF, []) := by
  simp only [Deserialize, ReadFull, makeBytes, List.length_replicate, List.length_cons]
  rw [if_pos (by omega)]
  simp only [List.take_succ_cons, List.take_zero, List.drop_succ_cons, List.drop_zero,
    Uint32_cons]
  by_cases hz : be32Value b0 b1 b2 b3 = 0
  · simp [hz]
  · simp only [hz, if_false]
    by_cases hl : be32Value b0 b1 b2 b3 ≤ t.length
    · simp only [hl, if_true]
    · simp only [hl, if_false]
      by_cases ht : t.length = 0 <;> simp [ht]

/-- A reader that holds a full frame of `L ≥ 1` bytes behind the prefix. -/
theorem Deserialize_frame (b0 b1 b2 b3 x : Byte) (payload rest : List Byte)
    (hL : be32Value b0 b1 b2 b3 = payload.length + 1) :
    Deserialize (b0 :: b1 :: b2 :: b3 :: x :: (payload ++ rest))
      = some (some { ID := x, Payload := payload }, none, rest) := by
  rw [Deserialize_cons, hL, if_neg (by omega), if_pos (by simp)]
  simp

theorem Serialize_length_ge (m : Message) (out : List Byte)
    (h : Serialize (some m) = some out) : 5 ≤ out.length := by
  simp only [Serialize] at h
  split at h
  · exact absurd h (by simp)
  · split at h
    · exact absurd h (by simp)
    · split at h
      · split at h
        · exact absurd h (by simp)
        · rename_i hlt _ _
          simp only [Option.some.injEq] at h
          rw [← h, List.length_append, List.length_take]
          simp only [List.length_set] at hlt ⊢
          omega
      · exact absurd h (by simp)

/-- On every frame whose length field `L` satisfies `L + 4 < 2 ^ 32`, `Serialize` undoes
`Deserialize`. -/
theorem Serialize_Deserialize_frame (b0 b1 b2 b3 : Byte) (body : List Byte)
    (hL : be32Value b0 b1 b2 b3 = body.length) (hfit : body.length + 4 < 2 ^ 32) :
    ∃ m, Deserialize (b0 :: b1 :: b2 :: b3 :: body) = some (m, none, [])
      ∧ Serialize m = some (b0 :: b1 :: b2 :: b3 :: body) := by
  cases body with
  | nil =>
    refine ⟨none, ?_, ?_⟩
    · rw [Deserialize_cons, if_pos (by simpa using hL)]
    · have h := be32_be32Value b0 b1 b2 b3
      rw [hL] at h
      rw [← h]
      rfl
  | cons x payload =>
    refine ⟨some { ID := x, Payload := payload }, ?_, ?_⟩
    · have h := Deserialize_frame b0 b1 b2 b3 x payload [] (by simpa using hL)
      simpa using h
    · rw [Serialize_some_eq _ (by simpa using hfit)]
      have h := be32_be32Value b0 b1 b2 b3
      rw [hL] at h
      simp only [List.length_cons] at h
      simp [h]

theorem Deserialize_zero_frame (b0 b1 b2 b3 : Byte) (n : Nat)
    (hL : be32Value b0 b1 b2 b3 = n + 1) :
    Deserialize (b0 :: b1 :: b2 :: b3 :: List.replicate (n + 1) 0)
      = some (some { ID := 0, Payload := List.replicate n 0 }, none, []) := by
  have h := Deserialize_frame b0 b1 b2 b3 0 (List.replicate n 0) []
    (by rw [hL, List.length_replicate])
  rw [List.append_nil] at h
  rw [List.replicate_succ]
  exact h

theorem Serialize_zeros_panic (id : Byte) (n : Nat)
    (h : (4 + (n + 1) % 2 ^ 32) % 2 ^ 32 ≤ 4) :
    Serialize (some { ID := id, Payload := List.replicate n 0 }) = none := by
  apply Serialize_some_panic
  simp only [List.length_replicate]
  exact h

theorem zeros_length_succ_lt (n : Nat) (h : n + 1 < 2 ^ 32) :
    (List.replicate n (0 : Byte)).length + 1 < 2 ^ 32 := by
  rw [List.length_replicate]
  exact h

/-! ## `ParsePeers` -/

theorem take_drop_four (l : List Byte) (lo : Nat) (h : lo + 4 ≤ l.length) :
    (l.take (lo + 4)).drop lo
      = [l.getD lo 0, l.getD (lo + 1) 0, l.getD (lo + 2) 0, l.getD (lo + 3) 0] := by
  induction lo generalizing l with
  | zero =>
    match l, h with
    | a :: b :: c :: d :: _, _ => simp
  | succ lo ih =>
    match l, h with
    | a :: l, h =>
      have h2 : lo + 4 ≤ l.length := by simpa using h
      have e : lo + 1 + 4 = (lo + 4) + 1 := by omega
      rw [e, List.take_succ_cons, List.drop_succ_cons, ih l h2]
      simp [List.getD_cons_succ, Nat.add_right_comm]

theorem take_drop_two (l : List Byte) (lo : Nat) (h : lo + 2 ≤ l.length) :
    (l.take (lo + 2)).drop lo = [l.getD lo 0, l.getD (lo + 1) 0] := by
  induction lo generalizing l with
  | zero =>
    match l, h with
    | a :: b :: _, _ => simp
  | succ lo ih =>
    match l, h with
    | a :: l, h =>
      have h2 : lo + 2 ≤ l.length := by simpa using h
      have e : lo + 1 + 2 = (lo + 2) + 1 := by omega
      rw [e, List.take_succ_cons, List.drop_succ_cons, ih l h2]
      simp [List.getD_cons_succ, Nat.add_right_comm]

/-- One pass of the loop body writes `peerAt arr i` at index `i`. -/
theorem parsePeersLoop_step (arr : List Byte) (numPeers i : Nat) (peers : List Peer)
    (hi : i < numPeers) (harr : 6 * numPeers ≤ arr.length) (hp : peers.length = numPeers) :
    parsePeersLoop arr numPeers i peers
      = parsePeersLoop arr numPeers (i + 1) (peers.set i (peerAt arr i)) := by
  rw [parsePeersLoop, if_pos hi]
  have hs1 : slice arr (i * 6) (i * 6 + 4) = some ((arr.take (i * 6 + 4)).drop (i * 6)) := by
    rw [slice, if_pos ⟨by omega, by omega⟩]
  have hs2 : slice arr (i * 6 + 4) (i * 6 + 6)
      = some ((arr.take (i * 6 + 4 + 2)).drop (i * 6 + 4)) := by
    rw [slice, if_pos ⟨by omega, by omega⟩]
  have hget : peers[i]? = some (peers[i]) := List.getElem?_eq_getElem (by omega)
  simp only [hs1, hs2, hget]
  rw [take_drop_four arr (i * 6) (by omega), take_drop_two arr (i * 6 + 4) (by omega),
    Uint16_cons]
  simp only [List.getElem?_set_self (show i < peers.length by omega), List.set_set]
  have e : i * 6 = 6 * i := Nat.mul_comm _ _
  simp only [e, peerAt, Nat.add_assoc]

/-- The loop returns: it leaves the entries below `i` alone and fills every later
one from the compact encoding. -/
theorem parsePeersLoop_spec (arr : List Byte) (numPeers : Nat)
    (harr : 6 * numPeers ≤ arr.length) :
    ∀ (k i : Nat) (peers : List Peer), numPeers - i = k → i ≤ numPeers →
      peers.length = numPeers →
      ∃ out, parsePeersLoop arr numPeers i peers = some out ∧ out.length = numPeers
        ∧ ∀ j, j < numPeers → out[j]? = if j < i then peers[j]? else some (peerAt arr j) := by
  intro k
  induction k with
  | zero =>
    intro i peers hk hi hp
    refine ⟨peers, ?_, hp, ?_⟩
    · rw [parsePeersLoop, if_neg (by omega)]
    · intro j hj
      rw [if_pos (by omega)]
  | succ k ih =>
    intro i peers hk hi hp
    have hlt : i < numPeers := by omega
    rw [parsePeersLoop_step arr numPeers i peers hlt harr hp]
    obtain ⟨out, hout, hlen, hget⟩ := ih (i + 1) (peers.set i (peerAt arr i)) (by omega)
      (by omega) (by rw [List.length_set]; exact hp)
    refine ⟨out, hout, hlen, ?_⟩
    intro j hj
    rw [hget j hj]
    by_cases h1 : j < i
    · rw [if_pos (by omega), if_pos h1, List.getElem?_set_ne (by omega)]
    · rw [if_neg h1]
      by_cases h2 : j = i
      · subst h2
        rw [if_pos (by omega), List.getElem?_set_self (by omega)]
      · rw [if_neg (by omega)]

/-- What `ParsePeers` returns on a string whose length is a multiple of six. -/
theorem ParsePeers_multiple (spare s : List Byte) (n : Nat) (h : s.length = 6 * n) :
    ∃ peers, ParsePeers spare s = some (peers, none) ∧ peers.length = n
      ∧ ∀ j, j < n → peers[j]? = some (peerAt s j) := by
  have hn : s.length / 6 = n := by omega
  have hm : s.length % 6 = 0 := by omega
  obtain ⟨out, hout, hlen, hget⟩ := parsePeersLoop_spec (bytesOfString spare s) n
    (by simp [bytesOfString]; omega) n 0 (List.replicate n { IP := [], Port := 0 })
    (by omega) (by omega) (by simp)
  refine ⟨out, ?_, hlen, ?_⟩
  · simp only [ParsePeers, hn, hm, ne_eq, not_true_eq_false, if_false, hout]
  · intro j hj
    rw [hget j hj, if_neg (by omega)]
    have e : ∀ i, i < s.length → (bytesOfString spare s).getD i 0 = s.getD i 0 := by
      intro i hi
      simp [bytesOfString, List.getD_eq_getElem?_getD, List.getElem?_append_left hi]
    simp only [peerAt]
    rw [e _ (by omega), e _ (by omega), e _ (by omega), e _ (by omega), e _ (by omega),
      e _ (by omega)]

/-- What `ParsePeers` returns on any other string. -/
theorem ParsePeers_malformed (spare s : List Byte) (h : s.length % 6 ≠ 0) :
    ParsePeers spare s = some ([], some (GoError.errorf "received malformed peers")) := by
  simp [ParsePeers, h]

/-! ## `BencodeToTorrent` -/

/-- For a positive divisor `ceilDiv` is the ceiling of the rational quotient. -/
theorem ceilDiv_eq_ceil (a b : Int) (hb : 0 < b) : ceilDiv a b = ⌈(a : ℚ) / (b : ℚ)⌉ := by
  unfold ceilDiv
  symm
  rw [Int.ceil_eq_iff]
  have hbq : (0 : ℚ) < (b : ℚ) := by exact_mod_cast hb
  have h1 := Int.emod_add_ediv (-a) b
  have h2 := Int.emod_nonneg (-a) hb.ne.symm
  have h3 := Int.emod_lt_of_pos (-a) hb
  constructor
  · rw [lt_div_iff₀ hbq]
    have : (-(-a / b) - 1) * b < a := by nlinarith
    exact_mod_cast this
  · rw [div_le_iff₀ hbq]
    have : a ≤ (-(-a / b)) * b := by nlinarith
    exact_mod_cast this

theorem pieceAt_length (arr : List Byte) (j : Nat) (h : 20 * j + 20 ≤ arr.length) :
    (pieceAt arr j).length = 20 := by
  simp only [pieceAt, List.length_drop, List.length_take]
  omega

theorem copy_digest (piece : List Byte) (h : piece.length = 20) :
    copy (makeBytes 20) piece = piece := by
  simp only [copy, makeBytes, List.length_replicate]
  rw [List.take_of_length_le (by omega), List.drop_of_length_le (by simp; omega),
    List.append_nil]

/-- One pass of the loop body appends the twenty bytes at `idx`. -/
theorem pieceHashesLoop_step (arr : List Byte) (len i : Nat) (hashes : List (List Byte))
    (hi : 20 * i < len) (harr : 20 * i + 20 ≤ arr.length) :
    pieceHashesLoop arr len (20 * i) hashes
      = pieceHashesLoop arr len (20 * (i + 1)) (hashes ++ [pieceAt arr i]) := by
  rw [pieceHashesLoop, if_pos hi]
  simp only [ShaDigestLen, slice]
  rw [if_pos ⟨by omega, harr⟩]
  have hc : copy (makeBytes 20) ((arr.take (20 * i + 20)).drop (20 * i)) = pieceAt arr i :=
    copy_digest _ (pieceAt_length arr i harr)
  simp only [hc]
  rfl

/-- On a length that is a multiple of twenty the loop returns, having appended the
remaining pieces in order. -/
theorem pieceHashesLoop_spec (arr : List Byte) (n : Nat) (harr : 20 * n ≤ arr.length) :
    ∀ (k i : Nat) (hashes : List (List Byte)), n - i = k → i ≤ n →
      pieceHashesLoop arr (20 * n) (20 * i) hashes
        = some (hashes ++ (List.range k).map (fun j => pieceAt arr (i + j))) := by
  intro k
  induction k with
  | zero =>
    intro i hashes hk hi
    rw [pieceHashesLoop, if_neg (by omega)]
    simp
  | succ k ih =>
    intro i hashes hk hi
    rw [pieceHashesLoop_step arr (20 * n) i hashes (by omega) (by omega),
      ih (i + 1) _ (by omega) (by omega), List.range_succ_eq_map]
    simp [Function.comp_def, Nat.add_assoc, Nat.add_comm 1]

/-- What `BencodeToTorrent` returns when the pieces string has length `20 * n`. -/
theorem BencodeToTorrent_multiple (marshal : BencodeInfo → Except GoError (List Byte))
    (sha1 : List Byte → List Byte) (spare : List Byte) (b : BencodeTorrent) (n : Nat)
    (h : b.Info.Pieces.length = 20 * n) :
    BencodeToTorrent marshal sha1 spare b
      = match BencodeInfo.Hash marshal sha1 b.Info with
        | (_, some err) => some (none, some err)
        | (hash, none) =>
          some (some { Interval := 0, Peers := [], Announce := b.Announce, InfoHash := hash,
                       PieceHashes := (List.range n).map (pieceAt b.Info.Pieces),
                       PieceLength := b.Info.PieceLength, Length := b.Info.Length,
                       Name := b.Info.Name }, none) := by
  have hloop := pieceHashesLoop_spec (bytesOfString spare b.Info.Pieces) n
    (by simp [bytesOfString]; omega) n 0 [] (by omega) (by omega)
  simp only [Nat.mul_zero, Nat.zero_add, List.nil_append] at hloop
  have hmap : (List.range n).map (pieceAt (bytesOfString spare b.Info.Pieces))
      = (List.range n).map (pieceAt b.Info.Pieces) := by
    apply List.map_congr_left
    intro j hj
    have hj2 : j < n := List.mem_range.mp hj
    simp only [pieceAt, bytesOfString]
    rw [List.take_append_of_le_length (by omega)]
  simp only [BencodeToTorrent, h, hloop, hmap]

/-! ## The claims -/

/-- C2: for every string `s`, `ParsePeers` returns, its error is nil exactly when
`len(s)` is a multiple of 6, and with an error it returns the nil slice of
peers. -/
theorem C2_parsePeers_succeeds_iff_multiple_of_six (spare s : List Byte) :
    ∃ peers err, ParsePeers spare s = some (peers, err)
      ∧ (err = none ↔ s.length % 6 = 0) ∧ (err = none ∨ peers = []) := by
  by_cases h : s.length % 6 = 0
  · obtain ⟨peers, hp, -, -⟩ := ParsePeers_multiple spare s (s.length / 6) (by omega)
    exact ⟨peers, none, hp, by simp [h], Or.inl rfl⟩
  · exact ⟨[], _, ParsePeers_malformed spare s h, by simp [h], Or.inr rfl⟩

/-- C3: for every string `s` of length `6 * n`, `ParsePeers` returns `n` peers and no
error; peer `i` has the four bytes `s[6i .. 6i+3]` as IP and `256 * s[6i+4] + s[6i+5]`
as port, and its `ToString` is the dotted decimal address, a colon and the decimal
port. -/
theorem C3_parsePeers_decodes_compact_peers (other : List Byte → String)
    (spare s : List Byte) (n : Nat) (h : s.length = 6 * n) :
    ∃ peers, ParsePeers spare s = some (peers, none) ∧ peers.length = n
      ∧ ∀ i, i < n → ∃ p, peers[i]? = some p
          ∧ p.IP = [s.getD (6 * i) 0, s.getD (6 * i + 1) 0, s.getD (6 * i + 2) 0,
              s.getD (6 * i + 3) 0]
          ∧ p.Port = 256 * (s.getD (6 * i + 4) 0).val + (s.getD (6 * i + 5) 0).val
          ∧ Peer.ToString other p
              = Nat.repr (s.getD (6 * i) 0).val ++ "." ++ Nat.repr (s.getD (6 * i + 1) 0).val
                ++ "." ++ Nat.repr (s.getD (6 * i + 2) 0).val ++ "."
                ++ Nat.repr (s.getD (6 * i + 3) 0).val ++ ":"
                ++ Nat.repr (256 * (s.getD (6 * i + 4) 0).val + (s.getD (6 * i + 5) 0).val) := by
  obtain ⟨peers, hp, hlen, hget⟩ := ParsePeers_multiple spare s n h
  exact ⟨peers, hp, hlen, fun i hi => ⟨peerAt s i, hget i hi, rfl, rfl, rfl⟩⟩

/-- C3 at the bytes `[192, 168, 1, 1, 0x1B, 0x39]`: one peer, with IP 192.168.1.1 and
port 6969, whose `ToString` is `192.168.1.1:6969`. -/
theorem C3_parsePeers_decodes_compact_peers_witness :
    ParsePeers [] [192, 168, 1, 1, 0x1B, 0x39]
        = some ([{ IP := [192, 168, 1, 1], Port := 6969 }], none)
      ∧ Peer.ToString (fun _ => "") { IP := [192, 168, 1, 1], Port := 6969 }
        = "192.168.1.1:6969" := by
  obtain ⟨peers, hp, hlen, hget⟩ := C3_parsePeers_decodes_compact_peers (fun _ => "") []
    [192, 168, 1, 1, 0x1B, 0x39] 1 (by decide)
  obtain ⟨p, hp0, hip, hport, hstr⟩ := hget 0 (by decide)
  match peers, hlen, hp0 with
  | [q], _, hq =>
    have hqp : q = p := by simpa using hq
    subst hqp
    have hq : q = { IP := [192, 168, 1, 1], Port := 6969 } := by
      cases q
      simp only [Peer.mk.injEq]
      exact ⟨hip, hport⟩
    subst hq
    exact ⟨hp, hstr⟩


/-- C1, at the frame where it fails: the well-formed frame `ff ff ff fc` followed by
`2 ^ 32 - 4` zero bytes is read by `Deserialize` without error into a message with
ID 0 and `2 ^ 32 - 5` payload bytes, and `Serialize` applied to that message panics
(`4 + length` wraps to 0 in `uint32`, so `buf[0:4]` is out of range) instead of
returning the frame. -/
theorem C1_largest_frames_do_not_round_trip :
    Deserialize (255 :: 255 :: 255 :: 252 :: List.replicate (4294967291 + 1) 0)
        = some (some { ID := 0, Payload := List.replicate 4294967291 0 }, none, [])
      ∧ Serialize (some { ID := 0, Payload := List.replicate 4294967291 0 }) = none :=
  ⟨Deserialize_zero_frame 255 255 255 252 4294967291 (by decide),
   Serialize_zeros_panic 0 4294967291 (by norm_num)⟩

/-- C4, at the message where it fails: for the non-nil message with ID `Choke` and a
payload of `2 ^ 32 - 5` bytes (payload length plus 1 is `2 ^ 32 - 4`, below `2 ^ 32`)
`Serialize` panics instead of returning `5 + len(m.Payload)` bytes. -/
theorem C4_serialize_panics_near_uint32_limit :
    (List.replicate 4294967291 (0 : Byte)).length + 1 < 2 ^ 32
      ∧ Serialize (some { ID := Choke, Payload := List.replicate 4294967291 0 }) = none :=
  ⟨zeros_length_succ_lt 4294967291 (by norm_num),
   Serialize_zeros_panic Choke 4294967291 (by norm_num)⟩

/-- C5: when the reader starts with a four-byte big-endian length `L ≥ 1` followed by
at least `L` bytes, `Deserialize` returns, without error and whatever the bytes
are, the message whose ID is the first byte after the prefix and whose payload is
the next `L - 1` bytes; the reader keeps everything after the first `4 + L` bytes. -/
theorem C5_deserialize_reads_one_frame (b0 b1 b2 b3 : Byte) (t : List Byte) (L : Nat)
    (hL : L = be32Value b0 b1 b2 b3) (h1 : 1 ≤ L) (h2 : L ≤ t.length) :
    ∃ id, t[0]? = some id
      ∧ Deserialize (b0 :: b1 :: b2 :: b3 :: t)
          = some (some { ID := id, Payload := (t.drop 1).take (L - 1) }, none, t.drop L)
      ∧ (b0 :: b1 :: b2 :: b3 :: t).length - (t.drop L).length = 4 + L := by
  cases t with
  | nil => simp at h2; omega
  | cons x t =>
    refine ⟨x, by simp, ?_, ?_⟩
    · have h := Deserialize_frame b0 b1 b2 b3 x (t.take (L - 1)) (t.drop (L - 1))
        (by rw [List.length_take]; simp at h2; omega)
      rw [List.take_append_drop] at h
      rw [h]
      obtain ⟨k, rfl⟩ : ∃ k, L = k + 1 := ⟨L - 1, by omega⟩
      simp
    · simp only [List.length_cons, List.length_drop] at h2 ⊢
      omega

theorem C5_deserialize_reads_one_frame_witness :
    ∃ id, ([200, 1, 2, 9] : List Byte)[0]? = some id
      ∧ Deserialize (0 :: 0 :: 0 :: 3 :: [200, 1, 2, 9])
          = some (some { ID := id, Payload := (([200, 1, 2, 9] : List Byte).drop 1).take (3 - 1) },
              none, ([200, 1, 2, 9] : List Byte).drop 3)
      ∧ (0 :: 0 :: 0 :: 3 :: ([200, 1, 2, 9] : List Byte)).length
          - (([200, 1, 2, 9] : List Byte).drop 3).length = 4 + 3 :=
  C5_deserialize_reads_one_frame 0 0 0 3 [200, 1, 2, 9] 3 (by decide) (by decide) (by decide)

/-- C6: when the reader ends before the four-byte prefix is complete, or the prefix
announces `L > 0` and fewer than `L` bytes follow it, `Deserialize` returns an error
and no message, and has drained the reader. -/
theorem C6_deserialize_short_read_is_error (r : List Byte)
    (h : r.length < 4 ∨ ∃ b0 b1 b2 b3 t, r = b0 :: b1 :: b2 :: b3 :: t
      ∧ 0 < be32Value b0 b1 b2 b3 ∧ t.length < be32Value b0 b1 b2 b3) :
    ∃ err, Deserialize r = some (none, some err, []) := by
  rcases h with h | ⟨b0, b1, b2, b3, t, rfl, hpos, hlt⟩
  · exact ⟨_, Deserialize_short r h⟩
  · rw [Deserialize_cons, if_neg (by omega), if_neg (by omega)]
    by_cases ht : t.length = 0
    · exact ⟨_, by rw [if_pos ht]⟩
    · exact ⟨_, by rw [if_neg ht]⟩

theorem C6_deserialize_short_read_is_error_witness :
    (∃ err, Deserialize [0, 0, 1] = some (none, some err, []))
      ∧ ∃ err, Deserialize [0, 0, 0, 4, 7, 1] = some (none, some err, []) :=
  ⟨C6_deserialize_short_read_is_error [0, 0, 1] (Or.inl (by decide)),
   C6_deserialize_short_read_is_error [0, 0, 0, 4, 7, 1]
    (Or.inr ⟨0, 0, 0, 4, [7, 1], rfl, by decide, by decide⟩)⟩

/-- C7: when the first four bytes of the reader are zero, `Deserialize` returns the
keep-alive, no message and no error, and the reader keeps every byte after those
four. -/
theorem C7_deserialize_keep_alive (t : List Byte) :
    Deserialize (0 :: 0 :: 0 :: 0 :: t) = some (none, none, t) := by
  rw [Deserialize_cons, if_pos (by decide)]

/-- C8: `Serialize` on the nil message returns the four bytes `00 00 00 00`, and on a
non-nil message it never returns that frame. -/
theorem C8_serialize_nil_is_zero_frame :
    Serialize none = some [0, 0, 0, 0]
      ∧ ∀ m : Message, Serialize (some m) ≠ some [0, 0, 0, 0] := by
  refine ⟨rfl, fun m h => ?_⟩
  have := Serialize_length_ge m _ h
  simp at this

/-- C9, as the claim states it, fails: on a metainfo with one piece hash, `Length` 10
and `PieceLength` 4, `BencodeToTorrent` returns without error a file with one piece
hash, while `ceil(10 / 4)` is 3. -/
theorem C9_hash_count_is_not_checked_against_length :
    BencodeToTorrent (marshalTo []) zeroDigest [] inconsistentMetainfo
        = some (some { Interval := 0, Peers := [], Announce := [104, 116, 116, 112],
                       InfoHash := List.replicate 20 0, PieceHashes := [List.replicate 20 7],
                       PieceLength := 4, Length := 10, Name := [120] }, none)
      ∧ (([List.replicate 20 (7 : Byte)] : List (List Byte)).length : Int) ≠ ceilDiv 10 4 := by
  refine ⟨?_, by decide⟩
  rw [BencodeToTorrent_multiple _ _ _ _ 1 (by decide)]
  decide

/-- C9, amended: when `PieceLength` is positive and the pieces string has length
`20 * ceil(Length / PieceLength)`, every file that `BencodeToTorrent` returns
without error has `ceil(Length / PieceLength)` piece hashes. -/
theorem C9_hash_count_of_consistent_metainfo
    (marshal : BencodeInfo → Except GoError (List Byte)) (sha1 : List Byte → List Byte)
    (spare : List Byte) (b : BencodeTorrent) (t : TorrentFile)
    (hpos : 0 < b.Info.PieceLength)
    (hlen : (b.Info.Pieces.length : Int) = 20 * ceilDiv b.Info.Length b.Info.PieceLength)
    (hret : BencodeToTorrent marshal sha1 spare b = some (some t, none)) :
    0 < t.PieceLength ∧ (t.PieceHashes.length : Int) = ceilDiv t.Length t.PieceLength := by
  obtain ⟨n, hn⟩ : ∃ n : Nat, b.Info.Pieces.length = 20 * n := by
    refine ⟨b.Info.Pieces.length / 20, ?_⟩
    omega
  rw [BencodeToTorrent_multiple marshal sha1 spare b n hn] at hret
  split at hret
  · simp at hret
  · simp only [Option.some.injEq, Prod.mk.injEq, and_true] at hret
    subst hret
    simp only [List.length_map, List.length_range]
    refine ⟨hpos, ?_⟩
    rw [hn] at hlen
    push_cast at hlen
    omega

theorem C9_hash_count_of_consistent_metainfo_witness :
    (0 : Int) < 4 ∧ (([List.replicate 20 (7 : Byte)] : List (List Byte)).length : Int)
      = ceilDiv 4 4 :=
  C9_hash_count_of_consistent_metainfo (marshalTo []) zeroDigest [] consistentMetainfo
    { Interval := 0, Peers := [], Announce := [104, 116, 116, 112],
      InfoHash := List.replicate 20 0, PieceHashes := [List.replicate 20 7],
      PieceLength := 4, Length := 4, Name := [120] }
    (by decide) (by decide)
    (by rw [BencodeToTorrent_multiple _ _ _ _ 1 (by decide)]; decide)

/-- C10, at the metainfo where it fails: the pieces string has length 1, not a
multiple of 20.  `BencodeToTorrent` returns no error: it panics in
`piecesBytes[0:20]` when the slice has no spare capacity, and with 31 spare zero
bytes it returns a file whose one piece hash is the byte followed by 19 zeros. -/
theorem C10_ragged_pieces_are_not_rejected :
    raggedMetainfo.Info.Pieces.length % 20 ≠ 0
      ∧ (∀ marshal sha1, BencodeToTorrent marshal sha1 [] raggedMetainfo = none)
      ∧ ∀ buf sha1, BencodeToTorrent (marshalTo buf) sha1 (List.replicate 31 0) raggedMetainfo
          = some (some { Interval := 0, Peers := [], Announce := [104, 116, 116, 112],
                         InfoHash := sha1 buf, PieceHashes := [97 :: List.replicate 19 0],
                         PieceLength := 4, Length := 4, Name := [120] }, none) := by
  refine ⟨by decide, ?_, ?_⟩
  · intro marshal sha1
    simp [BencodeToTorrent, raggedMetainfo, bytesOfString, pieceHashesLoop, slice,
      ShaDigestLen]
  · intro buf sha1
    simp [BencodeToTorrent, raggedMetainfo, bytesOfString, pieceHashesLoop, slice,
      ShaDigestLen, copy, makeBytes, BencodeInfo.Hash, marshalTo]

/-- C11: when the pieces string has length `20 * n` (and hashing the info dictionary
raises no error), `BencodeToTorrent` returns a file with exactly `n` piece hashes;
hash `i` has 20 bytes, byte `k` of it being `pieces[20 * i + k]`; an empty pieces
string gives no piece hashes. -/
theorem C11_piece_hashes_are_the_chunks_of_pieces
    (marshal : BencodeInfo → Except GoError (List Byte)) (sha1 : List Byte → List Byte)
    (spare : List Byte) (b : BencodeTorrent) (n : Nat) (buf : List Byte)
    (hlen : b.Info.Pieces.length = 20 * n) (hm : marshal b.Info = Except.ok buf) :
    ∃ t, BencodeToTorrent marshal sha1 spare b = some (some t, none)
      ∧ t.PieceHashes.length = n
      ∧ (∀ i, i < n → ∃ h, t.PieceHashes[i]? = some h ∧ h.length = 20
          ∧ ∀ k, k < 20 → h[k]? = b.Info.Pieces[20 * i + k]?)
      ∧ (b.Info.Pieces = [] → t.PieceHashes = []) := by
  refine ⟨{ Interval := 0, Peers := [], Announce := b.Announce, InfoHash := sha1 buf,
             PieceHashes := (List.range n).map (pieceAt b.Info.Pieces),
             PieceLength := b.Info.PieceLength, Length := b.Info.Length,
             Name := b.Info.Name }, ?_, ?_, ?_, ?_⟩
  · rw [BencodeToTorrent_multiple marshal sha1 spare b n hlen]
    simp only [BencodeInfo.Hash, hm]
  · simp
  · intro i hi
    refine ⟨pieceAt b.Info.Pieces i, ?_, pieceAt_length _ _ (by omega), ?_⟩
    · simp [List.getElem?_map, List.getElem?_range hi]
    · intro k hk
      simp only [pieceAt]
      rw [List.getElem?_drop, List.getElem?_take_of_lt (by omega)]
  · intro hnil
    have hn : n = 0 := by
      rw [hnil] at hlen
      simp at hlen
      omega
    subst hn
    simp

theorem C11_piece_hashes_are_the_chunks_of_pieces_witness :
    ∃ t, BencodeToTorrent (marshalTo []) zeroDigest [] consistentMetainfo = some (some t, none)
      ∧ t.PieceHashes.length = 1
      ∧ (∀ i, i < 1 → ∃ h, t.PieceHashes[i]? = some h ∧ h.length = 20
          ∧ ∀ k, k < 20 → h[k]? = consistentMetainfo.Info.Pieces[20 * i + k]?)
      ∧ (consistentMetainfo.Info.Pieces = [] → t.PieceHashes = []) :=
  C11_piece_hashes_are_the_chunks_of_pieces (marshalTo []) zeroDigest [] consistentMetainfo 1 []
    (by decide) rfl

/-- Whenever `BencodeToTorrent` returns a file, its `InfoHash` is the digest of what
`bencode.Marshal` wrote for the `BencodeInfo` struct. -/
theorem BencodeToTorrent_infoHash (marshal : BencodeInfo → Except GoError (List Byte))
    (sha1 : List Byte → List Byte) (spare : List Byte) (b : BencodeTorrent) (t : TorrentFile)
    (h : BencodeToTorrent marshal sha1 spare b = some (some t, none)) :
    ∃ buf, marshal b.Info = Except.ok buf ∧ t.InfoHash = sha1 buf := by
  simp only [BencodeToTorrent, BencodeInfo.Hash] at h
  split at h
  · exact absurd h (by simp)
  · cases hm : marshal b.Info with
    | error err => simp [hm] at h
    | ok buf =>
      simp only [hm, Option.some.injEq, Prod.mk.injEq, and_true] at h
      exact ⟨buf, rfl, by rw [← h]⟩

theorem openAndConvert_some (unmarshal : List Byte → BencodeTorrent × Option GoError)
    (marshal : BencodeInfo → Except GoError (List Byte)) (sha1 : List Byte → List Byte)
    (spare r : List Byte) (t : TorrentFile)
    (h : openAndConvert unmarshal marshal sha1 spare r = some (some t, none)) :
    ∃ b, unmarshal r = (b, none) ∧ BencodeToTorrent marshal sha1 spare b = some (some t, none) := by
  simp only [openAndConvert, Open] at h
  rcases hu : unmarshal r with ⟨b, _ | err⟩
  · rw [hu] at h
    exact ⟨b, rfl, h⟩
  · rw [hu] at h
    simp at h

/-- C12, what the code hashes: when `Open` followed by `BencodeToTorrent` returns a
file for the torrent file `r1`, its `InfoHash` is the digest of what
`bencode.Marshal` writes for the decoded `BencodeInfo` struct, which has the four
fields pieces, piece length, length and name and no other key; so a second file
`r2` whose decoded struct agrees on these four fields gets the same `InfoHash`,
whatever further keys its info dictionary holds. -/
theorem C12_info_hash_covers_only_the_four_fields
    (unmarshal : List Byte → BencodeTorrent × Option GoError)
    (marshal : BencodeInfo → Except GoError (List Byte)) (sha1 : List Byte → List Byte)
    (spare1 spare2 r1 r2 : List Byte) (t1 t2 : TorrentFile)
    (h1 : openAndConvert unmarshal marshal sha1 spare1 r1 = some (some t1, none))
    (h2 : openAndConvert unmarshal marshal sha1 spare2 r2 = some (some t2, none))
    (hinfo : (unmarshal r1).1.Info = (unmarshal r2).1.Info) :
    t1.InfoHash = t2.InfoHash
      ∧ ∃ buf, marshal (unmarshal r1).1.Info = Except.ok buf ∧ t1.InfoHash = sha1 buf := by
  obtain ⟨b1, hu1, hb1⟩ := openAndConvert_some unmarshal marshal sha1 spare1 r1 t1 h1
  obtain ⟨b2, hu2, hb2⟩ := openAndConvert_some unmarshal marshal sha1 spare2 r2 t2 h2
  obtain ⟨buf1, hm1, hh1⟩ := BencodeToTorrent_infoHash marshal sha1 spare1 b1 t1 hb1
  obtain ⟨buf2, hm2, hh2⟩ := BencodeToTorrent_infoHash marshal sha1 spare2 b2 t2 hb2
  rw [hu1, hu2] at hinfo
  simp only at hinfo
  rw [hu1]
  refine ⟨?_, buf1, hm1, hh1⟩
  rw [← hinfo, hm1] at hm2
  simp only [Except.ok.injEq] at hm2
  rw [hh1, hh2, hm2]

theorem C12_info_hash_covers_only_the_four_fields_witness :
    (List.replicate 20 (0 : Byte)) = List.replicate 20 0
      ∧ ∃ buf, marshalTo [100, 101] (decodeToConsistent [1]).1.Info = Except.ok buf
          ∧ List.replicate 20 (0 : Byte) = zeroDigest buf :=
  C12_info_hash_covers_only_the_four_fields decodeToConsistent (marshalTo [100, 101]) zeroDigest
    [] [] [1] [2]
    { Interval := 0, Peers := [], Announce := [104, 116, 116, 112],
      InfoHash := List.replicate 20 0, PieceHashes := [List.replicate 20 7],
      PieceLength := 4, Length := 4, Name := [120] }
    { Interval := 0, Peers := [], Announce := [104, 116, 116, 112],
      InfoHash := List.replicate 20 0, PieceHashes := [List.replicate 20 7],
      PieceLength := 4, Length := 4, Name := [120] }
    (by simp only [openAndConvert, Open, decodeToConsistent]
        rw [BencodeToTorrent_multiple _ _ _ _ 1 (by decide)]; decide)
    (by simp only [openAndConvert, Open, decodeToConsistent]
        rw [BencodeToTorrent_multiple _ _ _ _ 1 (by decide)]; decide)
    rfl

/-- C13, as the claim states it, fails: on the metainfo in which announce, pieces,
piece length, length and name all have the zero value of a missing key,
`BencodeToTorrent` returns a file carrying those zero values and a nil error. -/
theorem C13_absent_fields_are_accepted :
    BencodeToTorrent (marshalTo []) zeroDigest [] absentFieldsMetainfo
      = some (some { Interval := 0, Peers := [], Announce := [],
                     InfoHash := List.replicate 20 0, PieceHashes := [],
                     PieceLength := 0, Length := 0, Name := [] }, none) := by
  rw [BencodeToTorrent_multiple _ _ _ _ 0 (by decide)]
  decide

/-- C13, amended: when the pieces string has a length that is a multiple of 20 (the
empty string included), `BencodeToTorrent` returns an error and no file exactly
when hashing the info dictionary fails, with that error; otherwise it returns a
file that carries announce, name, length and piece length as they were decoded,
zero values included. -/
theorem C13_only_hashing_can_fail
    (marshal : BencodeInfo → Except GoError (List Byte)) (sha1 : List Byte → List Byte)
    (spare : List Byte) (b : BencodeTorrent) (n : Nat)
    (hlen : b.Info.Pieces.length = 20 * n) :
    (∀ err, marshal b.Info = Except.error err ↔
        BencodeToTorrent marshal sha1 spare b = some (none, some err))
      ∧ ∀ buf, marshal b.Info = Except.ok buf →
          ∃ t, BencodeToTorrent marshal sha1 spare b = some (some t, none)
            ∧ t.Announce = b.Announce ∧ t.Name = b.Info.Name ∧ t.Length = b.Info.Length
            ∧ t.PieceLength = b.Info.PieceLength := by
  rw [BencodeToTorrent_multiple marshal sha1 spare b n hlen]
  simp only [BencodeInfo.Hash]
  cases hm : marshal b.Info with
  | error e =>
    refine ⟨fun err => ?_, fun buf hbuf => by simp at hbuf⟩
    simp
  | ok out =>
    refine ⟨fun err => by simp, fun buf _ => ⟨_, rfl, rfl, rfl, rfl, rfl⟩⟩

theorem C13_only_hashing_can_fail_witness :
    (∀ err, marshalTo [] absentFieldsMetainfo.Info = Except.error err ↔
        BencodeToTorrent (marshalTo []) zeroDigest [] absentFieldsMetainfo
          = some (none, some err))
      ∧ ∀ buf, marshalTo [] absentFieldsMetainfo.Info = Except.ok buf →
          ∃ t, BencodeToTorrent (marshalTo []) zeroDigest [] absentFieldsMetainfo
              = some (some t, none)
            ∧ t.Announce = absentFieldsMetainfo.Announce
            ∧ t.Name = absentFieldsMetainfo.Info.Name
            ∧ t.Length = absentFieldsMetainfo.Info.Length
            ∧ t.PieceLength = absentFieldsMetainfo.Info.PieceLength :=
  C13_only_hashing_can_fail (marshalTo []) zeroDigest [] absentFieldsMetainfo 0 (by decide)

/-! ## Frames written by `Serialize` and read back -/

/-- A message whose frame `Serialize` can size without wrapping (`nil` included) is
written as one frame that `Deserialize` reads back, leaving what follows it. -/
theorem Deserialize_Serialize (m : Option Message)
    (hfit : ∀ msg, m = some msg → msg.Payload.length + 5 < 2 ^ 32) :
    ∃ frame, Serialize m = some frame
      ∧ ∀ rest, Deserialize (frame ++ rest) = some (m, none, rest) := by
  cases m with
  | none =>
    refine ⟨[0, 0, 0, 0], rfl, fun rest => ?_⟩
    show Deserialize (0 :: 0 :: 0 :: 0 :: rest) = _
    rw [Deserialize_cons, if_pos (by decide)]
  | some msg =>
    have h := hfit msg rfl
    refine ⟨_, Serialize_some_eq msg h, fun rest => ?_⟩
    have hv := be32Value_be32 (msg.Payload.length + 1) (by omega)
    have hd := Deserialize_frame _ _ _ _ msg.ID msg.Payload rest hv
    simpa [be32] using hd

theorem deserializeSerialized_eq (m : Option Message)
    (hfit : ∀ msg, m = some msg → msg.Payload.length + 5 < 2 ^ 32) :
    deserializeSerialized m = some (m, none, []) := by
  obtain ⟨frame, hs, hd⟩ := Deserialize_Serialize m hfit
  have := hd []
  rw [List.append_nil] at this
  simp only [deserializeSerialized, hs, this]

/-- On messages whose frame can be sized without wrapping `Serialize` is injective. -/
theorem Serialize_injective (m1 m2 : Option Message)
    (h1 : ∀ msg, m1 = some msg → msg.Payload.length + 5 < 2 ^ 32)
    (h2 : ∀ msg, m2 = some msg → msg.Payload.length + 5 < 2 ^ 32)
    (h : Serialize m1 = Serialize m2) : m1 = m2 := by
  have e1 := deserializeSerialized_eq m1 h1
  have e2 := deserializeSerialized_eq m2 h2
  simp only [deserializeSerialized, h] at e1
  simp only [deserializeSerialized] at e2
  rw [e1] at e2
  simpa using e2

/-- A sequence of such messages is read back one frame per call. -/
theorem DeserializeTimes_SerializeAll (ms : List (Option Message))
    (hfit : ∀ msg, some msg ∈ ms → msg.Payload.length + 5 < 2 ^ 32) :
    ∃ out, SerializeAll ms = some out
      ∧ ∀ rest, DeserializeTimes ms.length (out ++ rest)
          = some (ms.map (fun m => (m, none)), rest) := by
  induction ms with
  | nil => exact ⟨[], rfl, fun rest => rfl⟩
  | cons m ms ih =>
    obtain ⟨out, hout, hrest⟩ := ih (fun msg hmem => hfit msg (List.mem_cons_of_mem _ hmem))
    obtain ⟨frame, hs, hd⟩ := Deserialize_Serialize m
      (fun msg hm => hfit msg (by rw [hm]; exact List.mem_cons_self _ _))
    refine ⟨frame ++ out, by simp only [SerializeAll, hs, hout], fun rest => ?_⟩
    simp only [List.length_cons, DeserializeTimes, List.append_assoc, hd, hrest, List.map_cons]

theorem DeserializeTimes_append (n k : Nat) (r : List Byte)
    (res1 : List (Option Message × Option GoError)) (r1 : List Byte)
    (h : DeserializeTimes n r = some (res1, r1)) :
    DeserializeTimes (n + k) r
      = match DeserializeTimes k r1 with
        | none => none
        | some (res2, r2) => some (res1 ++ res2, r2) := by
  induction n generalizing r res1 r1 with
  | zero =>
    simp only [DeserializeTimes, Option.some.injEq, Prod.mk.injEq] at h
    obtain ⟨rfl, rfl⟩ := h
    simp only [Nat.zero_add, List.nil_append]
    cases DeserializeTimes k r with
    | none => rfl
    | some p => rfl
  | succ n ih =>
    have e : n + 1 + k = (n + k) + 1 := by omega
    rw [e]
    simp only [DeserializeTimes] at h ⊢
    cases hd : Deserialize r with
    | none => simp [hd] at h
    | some p =>
      obtain ⟨m, err, r2⟩ := p
      simp only [hd] at h ⊢
      cases hn : DeserializeTimes n r2 with
      | none => simp [hn] at h
      | some q =>
        obtain ⟨res, r3⟩ := q
        simp only [hn, Option.some.injEq, Prod.mk.injEq] at h
        obtain ⟨rfl, rfl⟩ := h
        rw [ih r2 res r3 hn]
        cases DeserializeTimes k r3 with
        | none => rfl
        | some p => rfl

/-- The whole of C19 below the wrap: the messages come back in order and the further
call reports `io.EOF`. -/
theorem deserializeAllSerialized_eq (ms : List (Option Message))
    (hfit : ∀ msg, some msg ∈ ms → msg.Payload.length + 5 < 2 ^ 32) :
    deserializeAllSerialized ms
      = some (ms.map (fun m => (m, none)) ++ [(none, some GoError.EOF)], []) := by
  obtain ⟨out, hout, hrest⟩ := DeserializeTimes_SerializeAll ms hfit
  have h := hrest []
  rw [List.append_nil] at h
  simp only [deserializeAllSerialized, hout]
  rw [DeserializeTimes_append ms.length 1 out _ _ h]
  rfl

theorem SerializeAll_panic (ms : List (Option Message)) (m : Option Message)
    (hm : m ∈ ms) (hp : Serialize m = none) : SerializeAll ms = none := by
  induction ms with
  | nil => simp at hm
  | cons x xs ih =>
    simp only [SerializeAll]
    rcases List.mem_cons.mp hm with rfl | hmem
    · rw [hp]
    · rw [ih hmem]
      cases Serialize x with
      | none => rfl
      | some frame => rfl

theorem deserializeAllSerialized_panic (ms : List (Option Message)) (m : Option Message)
    (hm : m ∈ ms) (hp : Serialize m = none) : deserializeAllSerialized ms = none := by
  simp only [deserializeAllSerialized, SerializeAll_panic ms m hm hp]

theorem deserializeSerialized_panic (m : Option Message) (hp : Serialize m = none) :
    deserializeSerialized m = none := by
  simp only [deserializeSerialized, hp]

/-- C18, at the message where it fails: for the non-nil message with ID `Unchoke` and
a payload of `2 ^ 32 - 2` bytes (payload length plus 1 is `2 ^ 32 - 1`, below
`2 ^ 32`) `Serialize` panics, so there is no stream for `Deserialize` to read the
message back from. -/
theorem C18_no_stream_to_read_back_near_uint32_limit :
    (List.replicate 4294967294 (0 : Byte)).length + 1 < 2 ^ 32
      ∧ deserializeSerialized (some { ID := Unchoke, Payload := List.replicate 4294967294 0 })
          = none :=
  ⟨zeros_length_succ_lt 4294967294 (by norm_num),
   deserializeSerialized_panic _ (Serialize_zeros_panic Unchoke 4294967294 (by norm_num))⟩

/-- C19, at the list where it fails: for the three messages nil, `Have` with a payload
of `2 ^ 32 - 3` bytes (payload length plus 1 is `2 ^ 32 - 2`, below `2 ^ 32`) and
`Choke` with no payload, `Serialize` of the second panics, so the stream
`Serialize(m1) ++ Serialize(m2) ++ Serialize(m3)` is never built and nothing is
read back. -/
theorem C19_no_stream_of_frames_near_uint32_limit :
    (List.replicate 4294967293 (0 : Byte)).length + 1 < 2 ^ 32
      ∧ deserializeAllSerialized
          [none, some { ID := Have, Payload := List.replicate 4294967293 0 },
            some { ID := Choke, Payload := [] }] = none :=
  ⟨zeros_length_succ_lt 4294967293 (by norm_num),
   deserializeAllSerialized_panic _ (some { ID := Have, Payload := List.replicate 4294967293 0 })
    (List.mem_cons_of_mem _ (List.mem_cons_self _ _))
    (Serialize_zeros_panic Have 4294967293 (by norm_num))⟩

/-! ## `BuildTrackerURL` -/

theorem digitChar_is_digit : ∀ d, d < 10 →
    48 ≤ (Nat.digitChar d).toNat ∧ (Nat.digitChar d).toNat ≤ 57 := by
  decide

theorem toDigitsCore_digits (fuel : Nat) :
    ∀ (n : Nat) (acc : List Char), (∀ c ∈ acc, 48 ≤ c.toNat ∧ c.toNat ≤ 57) →
      ∀ c ∈ Nat.toDigitsCore 10 fuel n acc, 48 ≤ c.toNat ∧ c.toNat ≤ 57 := by
  induction fuel with
  | zero =>
    intro n acc hacc c hc
    simp only [Nat.toDigitsCore] at hc
    exact hacc c hc
  | succ fuel ih =>
    intro n acc hacc c hc
    simp only [Nat.toDigitsCore] at hc
    have hd := digitChar_is_digit (n % 10) (Nat.mod_lt _ (by decide))
    have hacc2 : ∀ c ∈ Nat.digitChar (n % 10) :: acc, 48 ≤ c.toNat ∧ c.toNat ≤ 57 := by
      intro c hc
      rcases List.mem_cons.mp hc with rfl | hc
      · exact hd
      · exact hacc c hc
    split at hc
    · exact hacc2 c hc
    · exact ih _ _ hacc2 c hc

theorem repr_digits (n : Nat) : ∀ c ∈ (Nat.repr n).data, 48 ≤ c.toNat ∧ c.toNat ≤ 57 := by
  intro c hc
  simp only [Nat.repr, Nat.toDigits, List.asString] at hc
  exact toDigitsCore_digits _ _ [] (by simp) c hc

theorem escapeByte_digit (c : Char) (h : 48 ≤ c.toNat ∧ c.toNat ≤ 57) :
    escapeByte (toByte c.toNat) = [toByte c.toNat] := by
  have hv : (toByte c.toNat).val = c.toNat := by
    simp only [toByte]
    omega
  simp only [escapeByte, shouldEscape, hv]
  rw [if_pos (Or.inr (Or.inr h))]
  simp

theorem QueryEscape_repr (n : Nat) : QueryEscape (bytesOf (Nat.repr n)) = bytesOf (Nat.repr n) := by
  have h := repr_digits n
  simp only [QueryEscape, bytesOf]
  generalize (Nat.repr n).data = l at h
  induction l with
  | nil => rfl
  | cons c l ih =>
    simp only [List.map_cons, List.flatMap_cons]
    rw [escapeByte_digit c (h c (List.mem_cons_self _ _)),
      ih (fun x hx => h x (List.mem_cons_of_mem _ hx))]
    rfl

/-- A decimal number needs no escaping. -/
theorem QueryEscape_Itoa (i : Int) : QueryEscape (Itoa i) = Itoa i := by
  cases i with
  | ofNat n => exact QueryEscape_repr n
  | negSucc n =>
    simp only [Itoa]
    have h := QueryEscape_repr (n + 1)
    simp only [QueryEscape] at h ⊢
    rw [List.flatMap_append, h]
    rfl

theorem writePair_length_pos (buf k v : GoString) : 0 < (writePair buf k v).length := by
  simp only [writePair, List.length_append]
  have : (bytesOf "=").length = 1 := rfl
  omega

theorem writePair_of_pos (buf k v : GoString) (h : 0 < buf.length) :
    writePair buf k v = buf ++ bytesOf "&" ++ k ++ bytesOf "=" ++ QueryEscape v := by
  simp only [writePair, gt_iff_lt, h, if_true]

theorem sortKeys_params :
    sortKeys [bytesOf "info_hash", bytesOf "peer_id", bytesOf "port", bytesOf "uploaded",
        bytesOf "downloaded", bytesOf "compact", bytesOf "left"]
      = [bytesOf "compact", bytesOf "downloaded", bytesOf "info_hash", bytesOf "left",
          bytesOf "peer_id", bytesOf "port", bytesOf "uploaded"] := by
  decide

/-- What `Values.Encode` writes for a map with the seven keys of `BuildTrackerURL`. -/
theorem Encode_params (h p a b c d e : GoString) :
    Values.Encode
        [(bytesOf "info_hash", [h]), (bytesOf "peer_id", [p]), (bytesOf "port", [a]),
         (bytesOf "uploaded", [b]), (bytesOf "downloaded", [c]), (bytesOf "compact", [d]),
         (bytesOf "left", [e])]
      = bytesOf "compact=" ++ QueryEscape d ++ bytesOf "&downloaded=" ++ QueryEscape c
          ++ bytesOf "&info_hash=" ++ QueryEscape h ++ bytesOf "&left=" ++ QueryEscape e
          ++ bytesOf "&peer_id=" ++ QueryEscape p ++ bytesOf "&port=" ++ QueryEscape a
          ++ bytesOf "&uploaded=" ++ QueryEscape b := by
  have hstep : Values.Encode
        [(bytesOf "info_hash", [h]), (bytesOf "peer_id", [p]), (bytesOf "port", [a]),
         (bytesOf "uploaded", [b]), (bytesOf "downloaded", [c]), (bytesOf "compact", [d]),
         (bytesOf "left", [e])]
      = writePair (writePair (writePair (writePair (writePair (writePair (writePair []
          (QueryEscape (bytesOf "compact")) d)
          (QueryEscape (bytesOf "downloaded")) c)
          (QueryEscape (bytesOf "info_hash")) h)
          (QueryEscape (bytesOf "left")) e)
          (QueryEscape (bytesOf "peer_id")) p)
          (QueryEscape (bytesOf "port")) a)
          (QueryEscape (bytesOf "uploaded")) b := by
    simp only [Values.Encode, List.map, sortKeys_params]
    rfl
  rw [hstep]
  rw [writePair_of_pos _ _ b (writePair_length_pos _ _ _),
    writePair_of_pos _ _ a (writePair_length_pos _ _ _),
    writePair_of_pos _ _ p (writePair_length_pos _ _ _),
    writePair_of_pos _ _ e (writePair_length_pos _ _ _),
    writePair_of_pos _ _ h (writePair_length_pos _ _ _),
    writePair_of_pos _ _ c (writePair_length_pos _ _ _)]
  have e1 : QueryEscape (bytesOf "compact") = bytesOf "compact" := by decide
  have e2 : QueryEscape (bytesOf "downloaded") = bytesOf "downloaded" := by decide
  have e3 : QueryEscape (bytesOf "info_hash") = bytesOf "info_hash" := by decide
  have e4 : QueryEscape (bytesOf "left") = bytesOf "left" := by decide
  have e5 : QueryEscape (bytesOf "peer_id") = bytesOf "peer_id" := by decide
  have e6 : QueryEscape (bytesOf "port") = bytesOf "port" := by decide
  have e7 : QueryEscape (bytesOf "uploaded") = bytesOf "uploaded" := by decide
  rw [e1, e2, e3, e4, e5, e6, e7]
  simp only [writePair, List.length_nil, gt_iff_lt, Nat.lt_irrefl, if_false, List.nil_append]
  have f1 : bytesOf "compact=" = bytesOf "compact" ++ bytesOf "=" := by decide
  have f2 : bytesOf "&downloaded=" = bytesOf "&" ++ bytesOf "downloaded" ++ bytesOf "=" := by
    decide
  have f3 : bytesOf "&info_hash=" = bytesOf "&" ++ bytesOf "info_hash" ++ bytesOf "=" := by
    decide
  have f4 : bytesOf "&left=" = bytesOf "&" ++ bytesOf "left" ++ bytesOf "=" := by decide
  have f5 : bytesOf "&peer_id=" = bytesOf "&" ++ bytesOf "peer_id" ++ bytesOf "=" := by decide
  have f6 : bytesOf "&port=" = bytesOf "&" ++ bytesOf "port" ++ bytesOf "=" := by decide
  have f7 : bytesOf "&uploaded=" = bytesOf "&" ++ bytesOf "uploaded" ++ bytesOf "=" := by decide
  rw [f1, f2, f3, f4, f5, f6, f7]
  simp only [List.append_assoc]

/-- The query set by `BuildTrackerURL` is `trackerQuery`. -/
theorem Encode_tracker_params (infoHash peerID : GoString) (port : Nat) (length : Int) :
    Values.Encode
        [(bytesOf "info_hash", [infoHash]), (bytesOf "peer_id", [peerID]),
         (bytesOf "port", [Itoa (Int.ofNat port)]), (bytesOf "uploaded", [bytesOf "0"]),
         (bytesOf "downloaded", [bytesOf "0"]), (bytesOf "compact", [bytesOf "1"]),
         (bytesOf "left", [Itoa length])]
      = trackerQuery infoHash peerID port length := by
  rw [Encode_params, QueryEscape_Itoa, QueryEscape_Itoa]
  have g1 : QueryEscape (bytesOf "1") = bytesOf "1" := by decide
  have g0 : QueryEscape (bytesOf "0") = bytesOf "0" := by decide
  rw [g1, g0]
  have k1 : bytesOf "compact=1&downloaded=0&info_hash="
      = bytesOf "compact=" ++ bytesOf "1" ++ bytesOf "&downloaded=" ++ bytesOf "0"
          ++ bytesOf "&info_hash=" := by decide
  have k2 : bytesOf "&uploaded=0" = bytesOf "&uploaded=" ++ bytesOf "0" := by decide
  simp only [trackerQuery, k1, k2, List.append_assoc]

theorem trackerQuery_ne_nil (infoHash peerID : GoString) (port : Nat) (length : Int) :
    trackerQuery infoHash peerID port length ≠ [] := by
  intro h
  have hl := congrArg List.length h
  simp only [trackerQuery, List.length_append, List.length_nil] at hl
  have : (bytesOf "compact=1&downloaded=0&info_hash=").length = 33 := by decide
  omega

/-- What `BuildTrackerURL` returns once the announce URL has been parsed. -/
theorem BuildTrackerURL_ok (parse : GoString → Except GoError URL)
    (front : GoString → GoString → Option GoString → GoString → GoString → GoString → Bool →
      GoString)
    (escapedFragment : GoString → GoString → GoString)
    (t : TorrentFile) (peerID : GoString) (port : Nat) (base : URL)
    (hparse : parse t.Announce = Except.ok base) :
    BuildTrackerURL parse front escapedFragment t peerID port
      = (front base.Scheme base.Opaque base.User base.Host base.Path base.RawPath base.OmitHost
          ++ bytesOf "?" ++ trackerQuery t.InfoHash peerID port t.Length
          ++ (if base.Fragment ≠ [] then
                bytesOf "#" ++ escapedFragment base.Fragment base.RawFragment
              else []), none) := by
  simp only [BuildTrackerURL, hparse, Encode_tracker_params, URL.String]
  rw [if_pos (Or.inr (trackerQuery_ne_nil _ _ _ _))]
  by_cases hf : base.Fragment = []
  · simp [hf]
  · simp [hf]

set_option maxRecDepth 100000 in
theorem escapeByte_no_separator : ∀ c : Byte, 38 ∉ escapeByte c ∧ 61 ∉ escapeByte c := by
  decide

/-- No `&` and no `=` survives `url.QueryEscape`. -/
theorem QueryEscape_no_separator (s : GoString) :
    38 ∉ QueryEscape s ∧ 61 ∉ QueryEscape s := by
  simp only [QueryEscape, List.mem_flatMap, not_exists, not_and]
  exact ⟨fun c _ => (escapeByte_no_separator c).1, fun c _ => (escapeByte_no_separator c).2⟩

theorem Itoa_no_separator (i : Int) : 38 ∉ Itoa i ∧ 61 ∉ Itoa i := by
  rw [← QueryEscape_Itoa]
  exact QueryEscape_no_separator _

/-- C14: when the announce URL parses, `BuildTrackerURL` returns no error and the
announce URL (everything before its query, and its fragment) with the query
`compact=1&downloaded=0&info_hash=..&left=..&peer_id=..&port=..&uploaded=0`: the
seven parameters once each, joined by `&`, where `info_hash` and `peer_id` are the
raw bytes escaped by `url.QueryEscape`, `port` and `left` are in decimal, and no
value holds an `&` or `=` of its own. -/
theorem C14_tracker_url_has_the_seven_parameters (parse : GoString → Except GoError URL)
    (front : GoString → GoString → Option GoString → GoString → GoString → GoString → Bool →
      GoString)
    (escapedFragment : GoString → GoString → GoString)
    (t : TorrentFile) (peerID : GoString) (port : Nat) (base : URL)
    (hparse : parse t.Announce = Except.ok base) :
    BuildTrackerURL parse front escapedFragment t peerID port
        = (front base.Scheme base.Opaque base.User base.Host base.Path base.RawPath
              base.OmitHost
            ++ bytesOf "?"
            ++ List.intercalate (bytesOf "&")
                [bytesOf "compact=1", bytesOf "downloaded=0",
                 bytesOf "info_hash=" ++ QueryEscape t.InfoHash,
                 bytesOf "left=" ++ Itoa t.Length,
                 bytesOf "peer_id=" ++ QueryEscape peerID,
                 bytesOf "port=" ++ Itoa (Int.ofNat port),
                 bytesOf "uploaded=0"]
            ++ (if base.Fragment ≠ [] then
                  bytesOf "#" ++ escapedFragment base.Fragment base.RawFragment
                else []), none)
      ∧ ∀ v ∈ [QueryEscape t.InfoHash, Itoa t.Length, QueryEscape peerID,
            Itoa (Int.ofNat port)], 38 ∉ v ∧ 61 ∉ v := by
  constructor
  · rw [BuildTrackerURL_ok parse front escapedFragment t peerID port base hparse]
    have hq : trackerQuery t.InfoHash peerID port t.Length
        = List.intercalate (bytesOf "&")
            [bytesOf "compact=1", bytesOf "downloaded=0",
             bytesOf "info_hash=" ++ QueryEscape t.InfoHash,
             bytesOf "left=" ++ Itoa t.Length,
             bytesOf "peer_id=" ++ QueryEscape peerID,
             bytesOf "port=" ++ Itoa (Int.ofNat port),
             bytesOf "uploaded=0"] := by
      have k1 : bytesOf "compact=1&downloaded=0&info_hash="
          = bytesOf "compact=1" ++ bytesOf "&" ++ bytesOf "downloaded=0" ++ bytesOf "&"
              ++ bytesOf "info_hash=" := by decide
      have k2 : bytesOf "&left=" = bytesOf "&" ++ bytesOf "left=" := by decide
      have k3 : bytesOf "&peer_id=" = bytesOf "&" ++ bytesOf "peer_id=" := by decide
      have k4 : bytesOf "&port=" = bytesOf "&" ++ bytesOf "port=" := by decide
      have k5 : bytesOf "&uploaded=0" = bytesOf "&" ++ bytesOf "uploaded=0" := by decide
      simp only [trackerQuery, k1, k2, k3, k4, k5, List.intercalate, List.intersperse,
        List.flatten, List.append_assoc, List.append_nil]
    rw [hq]
  · intro v hv
    simp only [List.mem_cons, List.mem_singleton, List.not_mem_nil, or_false] at hv
    rcases hv with rfl | rfl | rfl | rfl
    · exact QueryEscape_no_separator _
    · exact Itoa_no_separator _
    · exact QueryEscape_no_separator _
    · exact Itoa_no_separator _

set_option maxRecDepth 100000 in
theorem C14_tracker_url_has_the_seven_parameters_witness :
    BuildTrackerURL parseToPasskeyURL plainFront plainFragment passkeyTorrentFile
        (List.replicate 20 45) 6969
      = (bytesOf ("http://tracker.example/announce?compact=1&downloaded=0"
          ++ "&info_hash=%12+A%FF%AB%AB%AB%AB%AB%AB%AB%AB%AB%AB%AB%AB%AB%AB%AB%AB"
          ++ "&left=4&peer_id=--------------------&port=6969&uploaded=0"), none) := by
  have h := (C14_tracker_url_has_the_seven_parameters parseToPasskeyURL plainFront
    plainFragment passkeyTorrentFile (List.replicate 20 45) 6969 passkeyURL rfl).1
  rw [h]
  decide

/-- C20: when the announce URL parses, with whatever query it carries,
`BuildTrackerURL` returns the URL whose scheme, host and path are those of the
announce URL and whose query is the seven tracker parameters alone: the result is
the one obtained from the same announce URL with its query removed, so nothing of
the original query is in it. -/
theorem C20_tracker_url_drops_the_announce_query (parse : GoString → Except GoError URL)
    (front : GoString → GoString → Option GoString → GoString → GoString → GoString → Bool →
      GoString)
    (escapedFragment : GoString → GoString → GoString)
    (t : TorrentFile) (peerID : GoString) (port : Nat) (base : URL)
    (hparse : parse t.Announce = Except.ok base) :
    ∃ u : URL, BuildTrackerURL parse front escapedFragment t peerID port
          = (URL.String front escapedFragment u, none)
      ∧ u.Scheme = base.Scheme ∧ u.Host = base.Host ∧ u.Path = base.Path
      ∧ u.RawQuery = trackerQuery t.InfoHash peerID port t.Length
      ∧ BuildTrackerURL parse front escapedFragment t peerID port
          = BuildTrackerURL (fun _ => Except.ok { base with RawQuery := [] }) front
              escapedFragment t peerID port := by
  refine ⟨{ base with RawQuery := trackerQuery t.InfoHash peerID port t.Length }, ?_, rfl, rfl,
    rfl, rfl, ?_⟩
  · simp only [BuildTrackerURL, hparse, Encode_tracker_params]
  · rw [BuildTrackerURL_ok parse front escapedFragment t peerID port base hparse,
      BuildTrackerURL_ok (fun _ => Except.ok { base with RawQuery := [] }) front escapedFragment
        t peerID port { base with RawQuery := [] } rfl]

theorem C20_tracker_url_drops_the_announce_query_witness :
    ∃ u : URL, BuildTrackerURL parseToPasskeyURL plainFront plainFragment passkeyTorrentFile
            (List.replicate 20 45) 6969
          = (URL.String plainFront plainFragment u, none)
      ∧ u.Scheme = passkeyURL.Scheme ∧ u.Host = passkeyURL.Host ∧ u.Path = passkeyURL.Path
      ∧ u.RawQuery = trackerQuery passkeyTorrentFile.InfoHash (List.replicate 20 45) 6969
          passkeyTorrentFile.Length
      ∧ BuildTrackerURL parseToPasskeyURL plainFront plainFragment passkeyTorrentFile
            (List.replicate 20 45) 6969
          = BuildTrackerURL (fun _ => Except.ok { passkeyURL with RawQuery := [] }) plainFront
              plainFragment passkeyTorrentFile (List.replicate 20 45) 6969 :=
  C20_tracker_url_drops_the_announce_query parseToPasskeyURL plainFront plainFragment
    passkeyTorrentFile (List.replicate 20 45) 6969 passkeyURL rfl

/-! ## `Announce` -/

/-- What `Announce` does with a response whose status is inside 200..299. -/
theorem Announce_2xx (get : GoString → Except GoError Response)
    (unmarshal : List Byte → AnnounceResponse × Option GoError)
    (spare : List Byte) (pid url : GoString) (response : Response)
    (hget : get url = Except.ok response)
    (hstatus : 200 ≤ response.StatusCode ∧ response.StatusCode ≤ 299) :
    Announce get unmarshal spare pid url
      = match unmarshal response.Body with
        | (_, some err) => some ([], 0, some err)
        | (announceRes, none) =>
          match ParsePeers spare announceRes.Peers with
          | none => none
          | some (_, some err) => some ([], 0, some err)
          | some (peers, none) => some (peers, uintOfInt announceRes.Interval, none) := by
  simp only [Announce, hget, ge_iff_le, hstatus, and_self, if_true]

/-- C15: for a response whose status lies outside 200..299 `Announce` returns,
whatever the body, the error `Announce failed with status N`, no peers and interval
0; for a status inside 200..299 the result is the same for every such status, so
the status alone causes no error. -/
theorem C15_announce_rejects_exactly_the_non_2xx_statuses
    (get : GoString → Except GoError Response)
    (unmarshal : List Byte → AnnounceResponse × Option GoError)
    (spare : List Byte) (pid url : GoString) (response : Response)
    (hget : get url = Except.ok response) :
    (¬ (200 ≤ response.StatusCode ∧ response.StatusCode ≤ 299) →
        Announce get unmarshal spare pid url
          = some ([], 0, some (GoError.errorsNew
              (bytesOf "Announce failed with status " ++ Itoa response.StatusCode))))
      ∧ ((200 ≤ response.StatusCode ∧ response.StatusCode ≤ 299) →
          (∀ status, 200 ≤ status ∧ status ≤ 299 →
            Announce (getFixed status response.Body) unmarshal spare pid url
              = Announce get unmarshal spare pid url)
          ∧ ∀ announceRes peers, unmarshal response.Body = (announceRes, none) →
              ParsePeers spare announceRes.Peers = some (peers, none) →
              Announce get unmarshal spare pid url
                = some (peers, uintOfInt announceRes.Interval, none)) := by
  refine ⟨fun hnot => ?_, fun h2xx => ⟨fun status hs => ?_, fun announceRes peers hu hp => ?_⟩⟩
  · simp only [Announce, hget, ge_iff_le, hnot, if_false]
  · rw [Announce_2xx get unmarshal spare pid url response hget h2xx,
      Announce_2xx (getFixed status response.Body) unmarshal spare pid url
        { StatusCode := status, Body := response.Body } rfl hs]
  · rw [Announce_2xx get unmarshal spare pid url response hget h2xx, hu]
    simp only [hp]

theorem C15_announce_rejects_exactly_the_non_2xx_statuses_witness :
    Announce (getFixed 404 [100, 101]) (decodeFixed 1800 []) [] [] (bytesOf "http://t/a")
      = some ([], 0, some (GoError.errorsNew (bytesOf "Announce failed with status 404"))) := by
  have h := (C15_announce_rejects_exactly_the_non_2xx_statuses (getFixed 404 [100, 101])
    (decodeFixed 1800 []) [] [] (bytesOf "http://t/a") { StatusCode := 404, Body := [100, 101] }
    rfl).1 (by decide)
  rw [h]
  decide

/-- C16, as the claim states it, fails: for a status 200 response whose body decodes
to the interval -1 and an empty peers string, `Announce` returns no error and the
interval `2 ^ 64 - 1`, the conversion `uint(-1)`, not the decoded interval -1. -/
theorem C16_negative_interval_is_not_returned_as_decoded :
    Announce (getFixed 200 (bytesOf "d8:intervali-1e5:peers0:e")) (decodeFixed (-1) []) [] []
        (bytesOf "http://t/a")
      = some ([], 18446744073709551615, none)
      ∧ ((18446744073709551615 : Nat) : Int) ≠ -1 := by
  refine ⟨?_, by decide⟩
  rw [Announce_2xx _ _ _ _ _ { StatusCode := 200, Body := bytesOf "d8:intervali-1e5:peers0:e" }
    rfl (by decide)]
  have hp : ParsePeers [] [] = some ([], none) := by
    simp [ParsePeers, parsePeersLoop]
  simp only [decodeFixed, hp]
  rfl

theorem uintOfInt_cast (i : Int) : ((uintOfInt i : Nat) : Int) = i % 2 ^ 64 := by
  simp only [uintOfInt]
  exact Int.toNat_of_nonneg (Int.emod_nonneg _ (by norm_num))

/-- C16, amended: for a response with a status inside 200..299 whose body decodes to
an interval and a peers string, `Announce` returns an error with no peers and
interval 0 when the length of the peers string is not a multiple of 6, and
otherwise returns exactly the peers that `ParsePeers` yields together with
`uint(interval)`, which is the decoded interval whenever that interval is not
negative. -/
theorem C16_announce_returns_peers_and_uint_interval
    (get : GoString → Except GoError Response)
    (unmarshal : List Byte → AnnounceResponse × Option GoError)
    (spare : List Byte) (pid url : GoString) (response : Response)
    (announceRes : AnnounceResponse)
    (hget : get url = Except.ok response)
    (hstatus : 200 ≤ response.StatusCode ∧ response.StatusCode ≤ 299)
    (hdecode : unmarshal response.Body = (announceRes, none)) :
    (announceRes.Peers.length % 6 ≠ 0 →
        ∃ err, Announce get unmarshal spare pid url = some ([], 0, some err))
      ∧ (announceRes.Peers.length % 6 = 0 →
          ∃ peers, ParsePeers spare announceRes.Peers = some (peers, none)
            ∧ Announce get unmarshal spare pid url
                = some (peers, uintOfInt announceRes.Interval, none))
      ∧ (0 ≤ announceRes.Interval → announceRes.Interval < 2 ^ 63 →
          ((uintOfInt announceRes.Interval : Nat) : Int) = announceRes.Interval) := by
  rw [Announce_2xx get unmarshal spare pid url response hget hstatus, hdecode]
  refine ⟨fun hbad => ?_, fun hgood => ?_, fun h0 h1 => ?_⟩
  · refine ⟨GoError.errorf "received malformed peers", ?_⟩
    simp only [ParsePeers_malformed spare announceRes.Peers hbad]
  · obtain ⟨peers, hp, -, -⟩ := ParsePeers_multiple spare announceRes.Peers
      (announceRes.Peers.length / 6) (by omega)
    exact ⟨peers, hp, by simp only [hp]⟩
  · rw [uintOfInt_cast]
    norm_num at h1 ⊢
    omega

theorem C16_announce_returns_peers_and_uint_interval_witness :
    ∃ peers, ParsePeers [] [192, 168, 1, 1, 0x1B, 0x39] = some (peers, none)
      ∧ Announce (getFixed 200 [100, 101]) (decodeFixed 1800 [192, 168, 1, 1, 0x1B, 0x39]) [] []
            (bytesOf "http://t/a")
          = some (peers, uintOfInt 1800, none) :=
  (C16_announce_returns_peers_and_uint_interval (getFixed 200 [100, 101])
    (decodeFixed 1800 [192, 168, 1, 1, 0x1B, 0x39]) [] [] (bytesOf "http://t/a")
    { StatusCode := 200, Body := [100, 101] } { Interval := 1800, Peers := [192, 168, 1, 1, 0x1B, 0x39] }
    rfl (by decide) rfl).2.1 (by decide)

end Milotorrent
